import Mathlib

/-!
# Verification of the sudoku solver (jraedisch/sudoku)

A shallow embedding of `sudoku.go` (the current snapshot of the repository)
into Lean 4, together with theorems checking the natural-language
specification against the code.

Conventions of the embedding:
* Go `Candidates` (a bitmask held in an `int`) is modelled as `Nat`; all
  values that occur on sudoku boards are tiny, so no overflow wrapping is
  involved.  Go's `&^` (bitwise AND NOT) is `andNot a b = a ^^^ (a &&& b)`,
  which agrees with it bit for bit.
* Go `Board` (`[][]int`) is `List (List Nat)`; out-of-range reads default to
  0 exactly where the Go code never performs them.
* The per-cell candidate grid of an `AnnotatedBoard` is modelled as a total
  function `Nat → Nat → Nat`; the Go slice only stores the entries
  with `y < size` and `x < size`, and all consumers in the source read only
  those entries.
* Go's `math.Log2`/`math.Sqrt` based helpers `log2` and `sqrt` are exact on
  every value the program feeds them (board sides and candidate masks of
  sudoku size), so they are modelled by executable floor-log2/floor-sqrt
  functions.  For `log2 0` Go converts `-Inf` to a negative integer so that
  the loop in `Decimals` does not run; `log2 0 = 0` here yields the same
  empty run.
* Recursions that Go drives by mutation and unbounded loops are given
  explicit fuel; the fuel chosen is proved (or is immediately) sufficient,
  so the embedded functions agree with the Go control flow.
-/

/-- Bitwise AND NOT (Go `a &^ b`), written with kernel-computable
operations: bit `i` of the result is set iff it is set in `a` and clear in
`b`. -/
def andNot (a b : Nat) : Nat := a ^^^ (a &&& b)

theorem testBit_andNot (a b i : Nat) :
    (andNot a b).testBit i = (a.testBit i && !(b.testBit i)) := by
  unfold andNot
  rw [Nat.testBit_xor, Nat.testBit_and]
  cases a.testBit i <;> cases b.testBit i <;> rfl

/- Go type `Candidates int` is a bitmask of "penciled" values (bit `v` set
means value `v` is a possible occupant of the field); it is modelled as a
bare `Nat` so that arithmetic automation sees through it, and its methods
live in the `Candidates` namespace. -/
namespace Candidates

/-- `func (c Candidates) Add(v int) Candidates { return c | 1<<uint(v) }` -/
def Add (c : Nat) (v : Nat) : Nat := c ||| (1 <<< v)

/-- `func (c Candidates) Remove(v int) Candidates { return c &^ (1 << uint(v)) }` -/
def Remove (c : Nat) (v : Nat) : Nat := andNot c (1 <<< v)

/-- `func (c Candidates) Contains(v int) bool { return c&(1<<uint(v)) != 0 }` -/
def Contains (c : Nat) (v : Nat) : Bool := c &&& (1 <<< v) != 0

/-- `func (c Candidates) Single() bool` — power-of-two test
`c > 0 && ((c & (c - 1)) == 0)`. -/
def Single (c : Nat) : Bool := decide (0 < c) && (c &&& (c - 1) == 0)

end Candidates

/-- Fuel-driven floor base-2 logarithm (the fuel bounds the number of
halvings); `log2F n n` computes `⌊log₂ n⌋` for `n ≥ 1`. -/
def log2F : Nat → Nat → Nat
  | 0, _ => 0
  | f + 1, n => if 2 ≤ n then log2F f (n / 2) + 1 else 0

/-- `func log2(i int) int { return int(math.Log2(float64(i))) }`, exact for
the candidate masks the program uses (see the module comment for `i = 0`). -/
def log2 (i : Nat) : Nat := log2F i i

theorem log2F_eq {f n : Nat} (h : n ≤ f) : log2F f n = Nat.log2 n := by
  induction f generalizing n with
  | zero =>
    have : n = 0 := by omega
    subst this
    simp [log2F, Nat.log2_zero]
  | succ k ih =>
    rw [log2F]
    by_cases h2 : 2 ≤ n
    · rw [if_pos h2, ih (by omega)]
      conv_rhs => rw [Nat.log2]
      simp [h2]
    · rw [if_neg h2]
      conv_rhs => rw [Nat.log2]
      simp [h2]

theorem log2_eq (i : Nat) : log2 i = Nat.log2 i := log2F_eq (Nat.le_refl i)

/-- Fuel-driven floor square root by downward search. -/
def sqrtDown : Nat → Nat → Nat
  | 0, _ => 0
  | r + 1, i => if (r + 1) * (r + 1) ≤ i then r + 1 else sqrtDown r i

/-- `func sqrt(i int) int { return int(math.Sqrt(float64(i))) }` — the floor
square root, exact for the board sizes the program uses. -/
def sqrt (i : Nat) : Nat := sqrtDown i i

/-- `func pow2(exp int) int { return int(math.Pow(float64(2), float64(exp))) }` -/
def pow2 (exp : Nat) : Nat := 2 ^ exp

/-- The loop body of `Candidates.Decimals`: `max` counts down from `log2 i`
to 1, subtracting `pow2(max)` whenever it fits and recording `max`. -/
def decAux : Nat → Nat → List Nat
  | 0, _ => []
  | m + 1, i =>
    if pow2 (m + 1) ≤ i then (m + 1) :: decAux m (i - pow2 (m + 1))
    else decAux m i

/-- `func (c Candidates) Decimals() (dcs []int)` — the set bits of `c`, from
`log2 c` down to 1, in descending order. -/
def Candidates.Decimals (c : Nat) : List Nat := decAux (log2 c) c

/-- `func allCandidates(size int) (c Candidates)` — the loop adds
`size, size-1, …, 1`; the accumulation is a commutative `or`, folded here
from 1 up to `size`. -/
def allCandidates : Nat → Nat
  | 0 => 0
  | n + 1 => Candidates.Add (allCandidates n) (n + 1)

namespace Candidates

theorem shiftLeft_one (v : Nat) : (1 : Nat) <<< v = 2 ^ v := by
  rw [Nat.shiftLeft_eq, Nat.one_mul]

theorem contains_iff_testBit (c : Nat) (v : Nat) :
    Contains c v = true ↔ c.testBit v = true := by
  unfold Contains
  rw [shiftLeft_one, bne_iff_ne, Nat.and_two_pow]
  cases h : c.testBit v <;> simp [h]

theorem testBit_add (c : Nat) (v w : Nat) :
    (Add c v).testBit w = (c.testBit w || decide (w = v)) := by
  unfold Add
  rw [shiftLeft_one, Nat.testBit_or, Nat.testBit_two_pow,
    decide_eq_decide.mpr (eq_comm)]

theorem testBit_remove (c : Nat) (v w : Nat) :
    (Remove c v).testBit w = (c.testBit w && !decide (w = v)) := by
  unfold Remove
  rw [testBit_andNot, shiftLeft_one, Nat.testBit_two_pow,
    decide_eq_decide.mpr (eq_comm)]

theorem testBit_allCandidates (n v : Nat) :
    (allCandidates n).testBit v = decide (1 ≤ v ∧ v ≤ n) := by
  induction n with
  | zero =>
    have h0 : ¬(1 ≤ v ∧ v ≤ 0) := by omega
    simp only [allCandidates, Nat.zero_testBit, decide_eq_false h0]
  | succ k ih =>
    rw [allCandidates, testBit_add, ih]
    by_cases h1 : v = k + 1
    · simp [h1]
    · simp only [decide_eq_false h1, Bool.or_false]
      by_cases h2 : 1 ≤ v ∧ v ≤ k
      · have : 1 ≤ v ∧ v ≤ k + 1 := ⟨h2.1, Nat.le_succ_of_le h2.2⟩
        simp [h2, this]
      · have : ¬(1 ≤ v ∧ v ≤ k + 1) := by
          intro hc
          exact h2 ⟨hc.1, by omega⟩
        simp [h2, this]

theorem testBit_of_lt_two_pow {c : Nat} {m v : Nat} (h : c < 2 ^ m)
    (hv : m ≤ v) : c.testBit v = false :=
  Nat.testBit_lt_two_pow (Nat.lt_of_lt_of_le h (Nat.pow_le_pow_right (by norm_num) hv))

/-- Characterisation of the `Decimals` loop body: for `i < 2^(m+1)` it lists
exactly the set bits of `i` in positions `1..m`. -/
theorem decAux_mem {m : Nat} : ∀ {i : Nat}, i < 2 ^ (m + 1) →
    ∀ v, v ∈ decAux m i ↔ (1 ≤ v ∧ v ≤ m ∧ i.testBit v = true) := by
  induction m with
  | zero => intro i _ v; simp [decAux]; omega
  | succ k ih =>
    intro i hi v
    rw [decAux]
    by_cases hle : pow2 (k + 1) ≤ i
    · simp only [if_pos hle]
      have hp : pow2 (k + 1) = 2 ^ (k + 1) := rfl
      have h2 : (2 : Nat) ^ (k + 1 + 1) = 2 ^ (k + 1) + 2 ^ (k + 1) := by
        rw [pow_succ]; omega
      have hsub : i - pow2 (k + 1) < 2 ^ (k + 1) := by omega
      set j := i - pow2 (k + 1) with hjdef
      have hj : i = 2 ^ (k + 1) + j := by omega
      rw [hj]
      have htop : (2 ^ (k + 1) + j).testBit (k + 1) = true := by
        rw [Nat.testBit_two_pow_add_eq, Nat.testBit_lt_two_pow hsub]
        rfl
      have hlow : ∀ w, w < k + 1 →
          (2 ^ (k + 1) + j).testBit w = j.testBit w := by
        intro w hw
        rw [Nat.testBit_two_pow_add_gt hw]
      rw [List.mem_cons, ih hsub]
      constructor
      · rintro (rfl | ⟨hv1, hv2, hv3⟩)
        · exact ⟨by omega, by omega, htop⟩
        · exact ⟨hv1, by omega, by rw [hlow v (by omega)]; exact hv3⟩
      · rintro ⟨hv1, hv2, hv3⟩
        by_cases hv : v = k + 1
        · exact Or.inl hv
        · refine Or.inr ⟨hv1, by omega, ?_⟩
          rw [← hlow v (by omega)]
          exact hv3
    · simp only [if_neg hle]
      have hi2 : i < 2 ^ (k + 1) := by
        have hp : pow2 (k + 1) = 2 ^ (k + 1) := rfl
        omega
      rw [ih hi2]
      constructor
      · rintro ⟨hv1, hv2, hv3⟩; exact ⟨hv1, by omega, hv3⟩
      · rintro ⟨hv1, hv2, hv3⟩
        refine ⟨hv1, ?_, hv3⟩
        by_cases hv : v = k + 1
        · subst hv
          rw [Nat.testBit_lt_two_pow hi2] at hv3
          exact absurd hv3 (by simp)
        · omega

theorem decAux_bound {m : Nat} : ∀ {i : Nat}, ∀ v ∈ decAux m i, 1 ≤ v ∧ v ≤ m := by
  induction m with
  | zero => intro i v hv; simp [decAux] at hv
  | succ k ih =>
    intro i v hv
    rw [decAux] at hv
    by_cases hle : pow2 (k + 1) ≤ i
    · rw [if_pos hle, List.mem_cons] at hv
      rcases hv with rfl | hv
      · omega
      · have := ih v hv; omega
    · rw [if_neg hle] at hv
      have := ih v hv; omega

theorem decAux_sorted {m : Nat} : ∀ {i : Nat}, (decAux m i).Chain' (· > ·) := by
  induction m with
  | zero => intro i; simp [decAux]
  | succ k ih =>
    intro i
    rw [decAux]
    by_cases hle : pow2 (k + 1) ≤ i
    · rw [if_pos hle]
      refine List.chain'_cons'.mpr ⟨?_, ih⟩
      intro w hw
      have := decAux_bound w (List.mem_of_mem_head? hw)
      omega
    · rw [if_neg hle]; exact ih

theorem mem_decimals (c : Nat) (v : Nat) :
    v ∈ Decimals c ↔ (1 ≤ v ∧ c.testBit v = true) := by
  unfold Decimals
  rw [log2_eq]
  rw [decAux_mem Nat.lt_log2_self]
  constructor
  · rintro ⟨h1, _, h3⟩; exact ⟨h1, h3⟩
  · rintro ⟨h1, h3⟩
    refine ⟨h1, ?_, h3⟩
    by_contra hgt
    rw [testBit_of_lt_two_pow Nat.lt_log2_self (by omega)] at h3
    exact absurd h3 (by simp)

theorem decimals_sorted (c : Nat) : (Decimals c).Chain' (· > ·) :=
  decAux_sorted

theorem decimals_zero : Decimals 0 = [] := rfl

theorem decimals_pos (c : Nat) : ∀ v ∈ Decimals c, 1 ≤ v :=
  fun v hv => ((mem_decimals c v).mp hv).1

theorem decimals_nodup (c : Nat) : (Decimals c).Nodup := by
  have h := (List.chain'_iff_pairwise).mp (decimals_sorted c)
  exact h.imp (fun h2 => Nat.ne_of_gt h2)

end Candidates

theorem decAux_zero (m : Nat) : decAux m 0 = [] := by
  induction m with
  | zero => rfl
  | succ k ih =>
    rw [decAux, if_neg]
    · exact ih
    · have : 0 < pow2 (k + 1) := Nat.pos_pow_of_pos _ (by norm_num)
      omega

namespace Candidates

theorem single_iff (c : Nat) : Single c = true ↔ ∃ k, c = 2 ^ k := by
  unfold Single
  rw [Bool.and_eq_true, decide_eq_true_iff, beq_iff_eq]
  constructor
  · rintro ⟨hc, hand⟩
    set k := Nat.log2 c with hk
    refine ⟨k, ?_⟩
    have h1 : 2 ^ k ≤ c := Nat.log2_self_le (by omega)
    have h2 : c < 2 ^ (k + 1) := Nat.lt_log2_self
    have hpow : (2 : Nat) ^ (k + 1) = 2 ^ k + 2 ^ k := by
      rw [pow_succ]; omega
    by_contra hne
    have hr : c = 2 ^ k + (c - 2 ^ k) := by omega
    have hrpos : 0 < c - 2 ^ k := by omega
    have hrlt : c - 2 ^ k < 2 ^ k := by omega
    have hbitc : c.testBit k = true := by
      conv_lhs => rw [hr]
      rw [Nat.testBit_two_pow_add_eq, Nat.testBit_lt_two_pow hrlt]
      rfl
    have hr1 : c - 1 = 2 ^ k + (c - 2 ^ k - 1) := by omega
    have hbitc1 : (c - 1).testBit k = true := by
      conv_lhs => rw [hr1]
      rw [Nat.testBit_two_pow_add_eq,
        Nat.testBit_lt_two_pow (show c - 2 ^ k - 1 < 2 ^ k by omega)]
      rfl
    have hb : (c &&& (c - 1)).testBit k = true := by
      rw [Nat.testBit_and, hbitc, hbitc1]
      rfl
    rw [hand, Nat.zero_testBit] at hb
    exact absurd hb (by simp)
  · rintro ⟨k, rfl⟩
    refine ⟨Nat.pos_pow_of_pos _ (by norm_num), ?_⟩
    apply Nat.eq_of_testBit_eq
    intro i
    rw [Nat.testBit_and, Nat.zero_testBit, Nat.testBit_two_pow,
      Nat.testBit_two_pow_sub_one]
    by_cases h : k = i <;> simp [h]

theorem decimals_two_pow {k : Nat} (hk : 1 ≤ k) : Decimals (2 ^ k) = [k] := by
  unfold Decimals
  rw [log2_eq, Nat.log2_two_pow]
  obtain ⟨m, rfl⟩ : ∃ m, k = m + 1 := ⟨k - 1, by omega⟩
  rw [decAux, if_pos (by unfold pow2; omega)]
  have : (2 : Nat) ^ (m + 1) - pow2 (m + 1) = 0 := by unfold pow2; omega
  rw [this, decAux_zero]

end Candidates

/-- Go type `Board [][]int`: the grid of placed values, 0 meaning empty. -/
abbrev Board := List (List Nat)

/-- Read a board cell; the Go code only indexes in range, where this agrees. -/
def getD2 (bo : Board) (y x : Nat) : Nat := (bo.getD y []).getD x 0

/-- Write a board cell (`bo[y][x] = v`); a no-op out of range, where the Go
code never writes. -/
def set2 (bo : Board) (y x v : Nat) : Board := bo.set y ((bo.getD y []).set x v)

/-- `func (bo Board) Size() int { return len(bo[0]) }` -/
def boardSize (bo : Board) : Nat := (bo.headI).length

/-- The board is an `n × n` grid. -/
def Square (bo : Board) (n : Nat) : Prop :=
  bo.length = n ∧ ∀ row ∈ bo, row.length = n

instance (bo : Board) (n : Nat) : Decidable (Square bo n) := by
  unfold Square; infer_instance

theorem boardSize_of_square {bo : Board} {n : Nat} (h : Square bo n) :
    boardSize bo = n := by
  obtain ⟨h1, h2⟩ := h
  unfold boardSize
  cases bo with
  | nil => exact h1
  | cons row rest =>
    simp only [List.headI]
    exact h2 row (List.mem_cons_self row rest)

/-- The first-empty scan of one row, Go `for x = range bo[y]`. -/
def firstEmptyRow (x : Nat) : List Nat → Option Nat
  | [] => none
  | v :: rest => if v = 0 then some x else firstEmptyRow (x + 1) rest

/-- `func (bo Board) FirstEmpty() (y, x int, found bool)` — row-major scan
for the first 0 cell; `none` models `found = false`. -/
def firstEmptyAux (y : Nat) : Board → Option (Nat × Nat)
  | [] => none
  | row :: rest =>
    match firstEmptyRow 0 row with
    | some x => some (y, x)
    | none => firstEmptyAux (y + 1) rest

def firstEmpty (bo : Board) : Option (Nat × Nat) := firstEmptyAux 0 bo

/-- `func (bo Board) Full() bool` — no empty field found. -/
def Full (bo : Board) : Prop := firstEmpty bo = none

instance (bo : Board) : Decidable (Full bo) := by
  unfold Full; infer_instance

/-- Number of empty (0) cells of one row. -/
def rowEmpty (row : List Nat) : Nat := row.countP (fun v => v == 0)

/-- Number of empty (0) cells of the whole board. -/
def emptyCount (bo : Board) : Nat := (bo.map rowEmpty).sum

/-- Row-major list of `(y, x, value)` cells, following the Go iteration
`for y, row := range bo { for x, v := range row { … } }`. -/
def rowCells (y : Nat) : Nat → List Nat → List (Nat × Nat × Nat)
  | _, [] => []
  | x, v :: rest => (y, x, v) :: rowCells y (x + 1) rest

def boardCells : Nat → Board → List (Nat × Nat × Nat)
  | _, [] => []
  | y, row :: rest => rowCells y 0 row ++ boardCells (y + 1) rest

def cellsOf (bo : Board) : List (Nat × Nat × Nat) := boardCells 0 bo

/-- The accumulator state of `Annotate`'s first pass: the per-row, per-col
and per-block masks of placed values, plus the candidate grid being built
(singleton masks for filled cells). -/
structure AnnSt where
  rows : Nat → Nat
  cols : Nat → Nat
  blocks : Nat → Nat → Nat
  cands : Nat → Nat → Nat

/-- Point update of a one-index accumulator. -/
def upd1 (f : Nat → Nat) (i : Nat) (v : Nat) : Nat → Nat :=
  fun j => if j = i then v else f j

/-- Point update of a two-index accumulator. -/
def upd2 (f : Nat → Nat → Nat) (y x : Nat) (v : Nat) : Nat → Nat → Nat :=
  fun y2 x2 => if y2 = y ∧ x2 = x then v else f y2 x2

/-- One cell of `Annotate`'s first pass: a positive value that is already
present in its row, column or block mask raises the `"Not Solvable."`
error (carrying the partial state, as the Go method returns `ab`);
otherwise the value is accumulated. -/
def annotCell (rt : Nat) (st : AnnSt) : Nat × Nat × Nat → Except AnnSt AnnSt
  | (y, x, v) =>
    if 0 < v then
      if Candidates.Contains (st.rows y) v || Candidates.Contains (st.cols x) v ||
          Candidates.Contains (st.blocks (y / rt) (x / rt)) v then
        Except.error st
      else
        Except.ok
          { rows := upd1 st.rows y (Candidates.Add (st.rows y) v)
            cols := upd1 st.cols x (Candidates.Add (st.cols x) v)
            blocks := upd2 st.blocks (y / rt) (x / rt)
              (Candidates.Add (st.blocks (y / rt) (x / rt)) v)
            cands := upd2 st.cands y x (Candidates.Add (st.cands y x) v) }
    else Except.ok st

def annotFold (rt : Nat) : List (Nat × Nat × Nat) → AnnSt → Except AnnSt AnnSt
  | [], st => Except.ok st
  | c :: rest, st =>
    match annotCell rt st c with
    | Except.ok st2 => annotFold rt rest st2
    | Except.error st2 => Except.error st2

def annotInit : AnnSt := ⟨fun _ => 0, fun _ => 0, fun _ _ => 0, fun _ _ => 0⟩

/-- `Annotate`'s second pass: every cell whose accumulated mask is ≤ 1 (the
empty cells) receives `allCandidates(size) &^ rows[y] &^ cols[x] &^
blocks[y/rt][x/rt]`; filled cells (mask > 1) are kept. -/
def secondPass (n rt : Nat) (st : AnnSt) : Nat → Nat → Nat :=
  fun y x =>
    if 1 < st.cands y x then st.cands y x
    else andNot (andNot (andNot (allCandidates n) (st.rows y)) (st.cols x))
      (st.blocks (y / rt) (x / rt))

/-- `func (ab AnnotatedBoard) Annotate() (AnnotatedBoard, error)` — the
recomputed candidate grid plus a success flag (`false` models the
`"Not Solvable."` error).  On error Go returns `ab` with the partially
built candidate grid and never runs the second pass; the flag records the
non-nil error. -/
def Annotate (bo : Board) : (Nat → Nat → Nat) × Bool :=
  match annotFold (sqrt (boardSize bo)) (cellsOf bo) annotInit with
  | Except.ok st => (secondPass (boardSize bo) (sqrt (boardSize bo)) st, true)
  | Except.error st => (st.cands, false)

/-- Whether `Annotate` succeeds (no duplicate in a row/column/block). -/
def okBoard (bo : Board) : Bool := (Annotate bo).2

/-- Go `AnnotatedBoard`: a board plus its candidate grid. -/
structure AnnotatedBoard where
  board : Board
  cands : Nat → Nat → Nat

/-- `NewAnnotatedBoard`: the annotated board every caller in the program
starts from — the board together with its `Annotate` grid. -/
def mkAB (bo : Board) : AnnotatedBoard := ⟨bo, (Annotate bo).1⟩

/-- `func (ab AnnotatedBoard) Solved() bool` — every candidate mask is a
singleton. -/
def Solved (n : Nat) (g : Nat → Nat → Nat) : Bool :=
  (List.range n).all fun y => (List.range n).all fun x => Candidates.Single (g y x)

/-- One cell of the `SingleCandidate` scan: an empty cell whose candidate
mask is single is filled with `c.Decimals()[0]` (modelled by `headI`; the
grids the loop ever scans give that list a positive head), and the
`solvable` flag is raised. -/
def scanStep (g : Nat → Nat → Nat) (y x : Nat) (acc : Board × Bool) : Board × Bool :=
  if Candidates.Single (g y x) && (getD2 acc.1 y x == 0) then
    (set2 acc.1 y x (Candidates.Decimals (g y x)).headI, true)
  else acc

/-- One full scan of the board (the two inner `for` loops of
`SingleCandidate`); candidates are fixed during the scan, the board is
updated in place. -/
def scanPass (n : Nat) (g : Nat → Nat → Nat) (bo : Board) : Board × Bool :=
  (List.range n).foldl (fun acc y =>
    (List.range n).foldl (fun acc2 x => scanStep g y x acc2) acc) (bo, false)

/-- The `for solvable { … }` loop of `SingleCandidate`, with fuel; returns
the final annotated board and the number of executed loop iterations.
Each iteration ends with `ab, _ = ab.Annotate()` (the error is discarded;
on error the partial candidate grid is kept, as in Go). -/
def scLoop : Nat → AnnotatedBoard → AnnotatedBoard × Nat
  | 0, ab => (ab, 0)
  | fuel + 1, ab =>
    let p := scanPass (boardSize ab.board) ab.cands ab.board
    let ab2 : AnnotatedBoard := ⟨p.1, (Annotate p.1).1⟩
    if p.2 then
      let r := scLoop fuel ab2
      (r.1, r.2 + 1)
    else (ab2, 1)

set_option linter.unusedVariables false in
/-- `func SingleCandidate(ab AnnotatedBoard, maxSolutions int) (bool, []Board)`.
The fuel `n*n + 2` dominates the number of loop iterations (each iteration
except possibly the first and the last fills at least one empty cell);
`maxSolutions` is unused, exactly as in the Go function. -/
def SingleCandidate (ab : AnnotatedBoard) (maxSolutions : Int) : Bool × List Board :=
  let r := scLoop (boardSize ab.board * boardSize ab.board + 2) ab
  (Solved (boardSize r.1.board) r.1.cands, [r.1.board])

/-- The number of outer-loop iterations `SingleCandidate` executes. -/
def scIters (ab : AnnotatedBoard) : Nat :=
  (scLoop (boardSize ab.board * boardSize ab.board + 2) ab).2

/-- The `for _, v := range ab.Candidates[y][x].Decimals()` loop of
`backtrack`: place each value in turn and recurse, propagating the
early-stop signal without trying further siblings. -/
def btkLoop (f : Board → List Board → Bool × List Board) (bo : Board) (y x : Nat) :
    List Nat → List Board → Bool × List Board
  | [], sols => (false, sols)
  | v :: rest, sols =>
    let r := f (set2 bo y x v) sols
    if r.1 then r else btkLoop f bo y x rest r.2

/-- `func backtrack(ab AnnotatedBoard, maxSolutions int, solutions *[]Board) bool`,
with `*solutions` threaded explicitly.  The fuel bounds the recursion
depth; `emptyCount bo + 1` is always enough because every recursive call
fills the first empty cell with a positive candidate value. -/
def btkF : Nat → Board → Int → List Board → Bool × List Board
  | 0, _, _, sols => (false, sols)
  | fuel + 1, bo, maxS, sols =>
    if (Annotate bo).2 then
      match firstEmpty bo with
      | none =>
        (decide (maxS ≤ ((sols.length + 1 : Nat) : Int)), sols ++ [bo])
      | some (y, x) =>
        btkLoop (fun b s => btkF fuel b maxS s) bo y x
          (Candidates.Decimals ((Annotate bo).1 y x)) sols
    else (false, sols)

/-- `func Backtrack(ab AnnotatedBoard, maxSolutions int) (solved bool, solutions []Board)` —
starts the recursion on an empty solution list. -/
def Backtrack (ab : AnnotatedBoard) (maxSolutions : Int) : Bool × List Board :=
  btkF (emptyCount ab.board + 1) ab.board maxSolutions []

/-- The unbounded depth-first enumeration underlying `backtrack`: all
completions the search would record, in search order (first-empty cell,
candidate values in `Decimals` order). -/
def enumF : Nat → Board → List Board
  | 0, _ => []
  | fuel + 1, bo =>
    if (Annotate bo).2 then
      match firstEmpty bo with
      | none => [bo]
      | some (y, x) =>
        ((Candidates.Decimals ((Annotate bo).1 y x)).map
          (fun v => enumF fuel (set2 bo y x v))).flatten
    else []

/-- All solutions of a board, in backtracking order. -/
def enumSols (bo : Board) : List Board := enumF (emptyCount bo + 1) bo

/-- The per-block data `CandidateLines` builds: 1-based masks of the lines
outside the block (`rowsNotInBlock`/`colsNotInBlock`), the per-value
occurrence maps `inRows`/`inCols` (1-based line indices keyed by candidate
value), and the set of keys present in the Go maps.  Go iterates map keys
in unspecified order; the removal loops below visit them in `Decimals`
order, which yields the same result because removals for distinct values
commute and the `succeeded` flag is an or. -/
structure BlockMaps where
  rowsNot : Nat
  colsNot : Nat
  inRows : Nat → Nat
  inCols : Nat → Nat
  keys : Nat

/-- `for _, c := range cs.Decimals() { inRows[c].Add(y+1); inCols[c].Add(x+1) }` -/
def addCellCands (y x : Nat) (m : BlockMaps) (cs : Nat) : BlockMaps :=
  (Candidates.Decimals cs).foldl (fun m2 c =>
    { m2 with
      inRows := upd1 m2.inRows c (Candidates.Add (m2.inRows c) (y + 1))
      inCols := upd1 m2.inCols c (Candidates.Add (m2.inCols c) (x + 1))
      keys := Candidates.Add m2.keys c }) m

/-- The two nested loops over the cells of block `(blkY, blkX)` that build
the block's maps from grid `g`. -/
def buildMaps (n : Nat) (g : Nat → Nat → Nat) (blockSize blkY blkX : Nat) : BlockMaps :=
  (List.range blockSize).foldl (fun m yIn =>
    let y := blkY * blockSize + yIn
    let m1 := { m with rowsNot := Candidates.Remove m.rowsNot (y + 1) }
    (List.range blockSize).foldl (fun m2 xIn =>
      let x := blkX * blockSize + xIn
      let m3 := { m2 with colsNot := Candidates.Remove m2.colsNot (x + 1) }
      addCellCands y x m3 (g y x)) m1)
    ⟨allCandidates n, allCandidates n, fun _ => 0, fun _ => 0, 0⟩

/-- Remove value `c` from column `col` in every row outside the block
(`for _, row := range rowsNotInBlock.Decimals()`). -/
def remCol (c col rowsNot : Nat) (st : (Nat → Nat → Nat) × Bool) :
    (Nat → Nat → Nat) × Bool :=
  (Candidates.Decimals rowsNot).foldl (fun s row =>
    if Candidates.Contains (s.1 (row - 1) col) c then
      (upd2 s.1 (row - 1) col (Candidates.Remove (s.1 (row - 1) col) c), true)
    else s) st

/-- Remove value `c` from row `row` in every column outside the block. -/
def remRow (c row colsNot : Nat) (st : (Nat → Nat → Nat) × Bool) :
    (Nat → Nat → Nat) × Bool :=
  (Candidates.Decimals colsNot).foldl (fun s col =>
    if Candidates.Contains (s.1 row (col - 1)) c then
      (upd2 s.1 row (col - 1) (Candidates.Remove (s.1 row (col - 1)) c), true)
    else s) st

/-- `for c, cols := range inCols { if cols.Single() { … } }` -/
def colsPhase (m : BlockMaps) (st : (Nat → Nat → Nat) × Bool) :
    (Nat → Nat → Nat) × Bool :=
  (Candidates.Decimals m.keys).foldl (fun s c =>
    if Candidates.Single (m.inCols c) then
      remCol c ((Candidates.Decimals (m.inCols c)).headI - 1) m.rowsNot s
    else s) st

/-- `for c, rows := range inRows { if rows.Single() { … } }` -/
def rowsPhase (m : BlockMaps) (st : (Nat → Nat → Nat) × Bool) :
    (Nat → Nat → Nat) × Bool :=
  (Candidates.Decimals m.keys).foldl (fun s c =>
    if Candidates.Single (m.inRows c) then
      remRow c ((Candidates.Decimals (m.inRows c)).headI - 1) m.colsNot s
    else s) st

/-- Processing of one block: build the maps from the current state of the
output grid, then apply the column and row deductions to it. -/
def blockStep (n blockSize blkY blkX : Nat) (st : (Nat → Nat → Nat) × Bool) :
    (Nat → Nat → Nat) × Bool :=
  let m := buildMaps n st.1 blockSize blkY blkX
  rowsPhase m (colsPhase m st)

/-- `func CandidateLines(ab AnnotatedBoard) (ab2 AnnotatedBoard, succeeded bool)` —
the two outer loops over `blkY`, `blkX`. -/
def CandidateLines (ab : AnnotatedBoard) : AnnotatedBoard × Bool :=
  let n := boardSize ab.board
  let blockSize := sqrt n
  let st := (List.range blockSize).foldl (fun s blkY =>
    (List.range blockSize).foldl (fun s2 blkX =>
      blockStep n blockSize blkY blkX s2) s) (ab.cands, false)
  (⟨ab.board, st.1⟩, st.2)

/-- Processing of one block with the maps taken from the fixed snapshot
grid `g0` instead of the current output state. -/
def blockStepSnap (n blockSize : Nat) (g0 : Nat → Nat → Nat) (blkY blkX : Nat)
    (st : (Nat → Nat → Nat) × Bool) : (Nat → Nat → Nat) × Bool :=
  let m := buildMaps n g0 blockSize blkY blkX
  rowsPhase m (colsPhase m st)

/-- Modelled from the spec (§4.5): the variant of `CandidateLines` in which
every block's occurrence maps "are computed from the original board
snapshot, only applied to the output copy". -/
def CandidateLinesSnap (ab : AnnotatedBoard) : AnnotatedBoard × Bool :=
  let n := boardSize ab.board
  let blockSize := sqrt n
  let st := (List.range blockSize).foldl (fun s blkY =>
    (List.range blockSize).foldl (fun s2 blkX =>
      blockStepSnap n blockSize ab.cands blkY blkX s2) s) (ab.cands, false)
  (⟨ab.board, st.1⟩, st.2)

/-- The row-major list of block coordinates `(blkY, blkX)`. -/
def blockIndices (blockSize : Nat) : List (Nat × Nat) :=
  (List.range blockSize).flatMap fun blkY =>
    (List.range blockSize).map fun blkX => (blkY, blkX)

/-- C10: `Decimals` is total on every candidate value, returning the set
bits at positions ≥ 1 in strictly descending order (candidate masks never
use bit 0, so these are exactly the set bits), and on the empty candidate
set 0 it returns the empty sequence rather than failing — so
`CandidateLines` may safely call it on a contradictory cell with no
candidates left. -/
theorem decimals_total_desc_set_bits :
    (∀ c : Nat, (Candidates.Decimals c).Chain' (· > ·)) ∧
    (∀ c v : Nat, v ∈ Candidates.Decimals c ↔ (1 ≤ v ∧ c.testBit v = true)) ∧
    Candidates.Decimals 0 = [] :=
  ⟨Candidates.decimals_sorted, Candidates.mem_decimals, Candidates.decimals_zero⟩

/-- Relation between an input and an output state of the removal machinery
of `CandidateLines`: the grid only ever loses candidates, and the flag is
raised exactly when some candidate was actually cleared. -/
def RemRel (s s2 : (Nat → Nat → Nat) × Bool) : Prop :=
  (∀ y x v, (s2.1 y x).testBit v = true → (s.1 y x).testBit v = true) ∧
  (s2.2 = true ↔ (s.2 = true ∨
    ∃ y x v, (s.1 y x).testBit v = true ∧ (s2.1 y x).testBit v = false))

theorem remRel_refl (s : (Nat → Nat → Nat) × Bool) : RemRel s s := by
  refine ⟨fun _ _ _ h => h, ?_⟩
  constructor
  · exact fun h => Or.inl h
  · rintro (h | ⟨y, x, v, h1, h2⟩)
    · exact h
    · rw [h1] at h2; exact absurd h2 (by simp)

theorem remRel_trans {s1 s2 s3 : (Nat → Nat → Nat) × Bool}
    (h12 : RemRel s1 s2) (h23 : RemRel s2 s3) : RemRel s1 s3 := by
  obtain ⟨m12, f12⟩ := h12
  obtain ⟨m23, f23⟩ := h23
  refine ⟨fun y x v h => m12 y x v (m23 y x v h), ?_⟩
  rw [f23, f12]
  constructor
  · rintro ((h | ⟨y, x, v, h1, h2⟩) | ⟨y, x, v, h1, h2⟩)
    · exact Or.inl h
    · refine Or.inr ⟨y, x, v, h1, ?_⟩
      cases h3 : (s3.1 y x).testBit v
      · rfl
      · rw [m23 y x v h3] at h2; exact absurd h2 (by simp)
    · exact Or.inr ⟨y, x, v, m12 y x v h1, h2⟩
  · rintro (h | ⟨y, x, v, h1, h2⟩)
    · exact Or.inl (Or.inl h)
    · cases h3 : (s2.1 y x).testBit v
      · exact Or.inl (Or.inr ⟨y, x, v, h1, h3⟩)
      · exact Or.inr ⟨y, x, v, h3, h2⟩

theorem remRel_foldl {α : Type}
    (f : ((Nat → Nat → Nat) × Bool) → α → ((Nat → Nat → Nat) × Bool))
    (hf : ∀ s a, RemRel s (f s a)) (l : List α) :
    ∀ s, RemRel s (l.foldl f s) := by
  induction l with
  | nil => intro s; exact remRel_refl s
  | cons a rest ih => intro s; exact remRel_trans (hf s a) (ih (f s a))

theorem remRel_removeStep (yy xx c : Nat) (s : (Nat → Nat → Nat) × Bool) :
    RemRel s (if Candidates.Contains (s.1 yy xx) c
      then (upd2 s.1 yy xx (Candidates.Remove (s.1 yy xx) c), true) else s) := by
  by_cases hfire : Candidates.Contains (s.1 yy xx) c = true
  · rw [if_pos hfire]
    constructor
    · intro y x v h
      by_cases hc : y = yy ∧ x = xx
      · rw [show (upd2 s.1 yy xx (Candidates.Remove (s.1 yy xx) c), true).1 y x
            = Candidates.Remove (s.1 yy xx) c by simp [upd2, hc],
          Candidates.testBit_remove] at h
        rw [hc.1, hc.2]
        exact (Bool.and_eq_true_iff.mp h).1
      · rwa [show (upd2 s.1 yy xx (Candidates.Remove (s.1 yy xx) c), true).1 y x
            = s.1 y x by simp [upd2, hc]] at h
    · simp only [true_iff]
      refine Or.inr ⟨yy, xx, c, (Candidates.contains_iff_testBit _ _).mp hfire, ?_⟩
      rw [show upd2 s.1 yy xx (Candidates.Remove (s.1 yy xx) c) yy xx
          = Candidates.Remove (s.1 yy xx) c by simp [upd2],
        Candidates.testBit_remove]
      simp
  · rw [if_neg hfire]
    exact remRel_refl s

theorem remRel_remCol (c col rowsNot : Nat) (s : (Nat → Nat → Nat) × Bool) :
    RemRel s (remCol c col rowsNot s) :=
  remRel_foldl _ (fun s2 row => remRel_removeStep (row - 1) col c s2) _ s

theorem remRel_remRow (c row colsNot : Nat) (s : (Nat → Nat → Nat) × Bool) :
    RemRel s (remRow c row colsNot s) :=
  remRel_foldl _ (fun s2 col => remRel_removeStep row (col - 1) c s2) _ s

theorem remRel_colsPhase (m : BlockMaps) (s : (Nat → Nat → Nat) × Bool) :
    RemRel s (colsPhase m s) := by
  refine remRel_foldl _ (fun s2 c => ?_) _ s
  by_cases hs : Candidates.Single (m.inCols c) = true
  · rw [if_pos hs]; exact remRel_remCol _ _ _ s2
  · rw [if_neg hs]; exact remRel_refl s2

theorem remRel_rowsPhase (m : BlockMaps) (s : (Nat → Nat → Nat) × Bool) :
    RemRel s (rowsPhase m s) := by
  refine remRel_foldl _ (fun s2 c => ?_) _ s
  by_cases hs : Candidates.Single (m.inRows c) = true
  · rw [if_pos hs]; exact remRel_remRow _ _ _ s2
  · rw [if_neg hs]; exact remRel_refl s2

theorem remRel_blockStep (n blockSize blkY blkX : Nat)
    (s : (Nat → Nat → Nat) × Bool) : RemRel s (blockStep n blockSize blkY blkX s) :=
  remRel_trans (remRel_colsPhase _ s) (remRel_rowsPhase _ _)

theorem remRel_candidateLines (ab : AnnotatedBoard) :
    RemRel (ab.cands, false)
      ((List.range (sqrt (boardSize ab.board))).foldl (fun s blkY =>
        (List.range (sqrt (boardSize ab.board))).foldl (fun s2 blkX =>
          blockStep (boardSize ab.board) (sqrt (boardSize ab.board)) blkY blkX s2) s)
        (ab.cands, false)) := by
  refine remRel_foldl _ (fun s blkY => ?_) _ _
  exact remRel_foldl _ (fun s2 blkX => remRel_blockStep _ _ _ _ s2) _ s

/-- C7: `CandidateLines` never adds a candidate — every cell's candidate
set in the returned annotated board is a subset of that cell's candidate
set in the input — and the returned `succeeded` flag is true iff at least
one candidate was removed from some cell. -/
theorem candidateLines_monotone_and_flag (ab : AnnotatedBoard) :
    (∀ y x v, Candidates.Contains ((CandidateLines ab).1.cands y x) v = true →
      Candidates.Contains (ab.cands y x) v = true) ∧
    ((CandidateLines ab).2 = true ↔
      ∃ y x v, Candidates.Contains (ab.cands y x) v = true ∧
        Candidates.Contains ((CandidateLines ab).1.cands y x) v = false) := by
  obtain ⟨hmono, hflag⟩ := remRel_candidateLines ab
  constructor
  · intro y x v h
    rw [Candidates.contains_iff_testBit] at h ⊢
    exact hmono y x v h
  · rw [show (CandidateLines ab).2 =
        ((List.range (sqrt (boardSize ab.board))).foldl (fun s blkY =>
          (List.range (sqrt (boardSize ab.board))).foldl (fun s2 blkX =>
            blockStep (boardSize ab.board) (sqrt (boardSize ab.board)) blkY blkX s2) s)
          (ab.cands, false)).2 from rfl, hflag]
    constructor
    · rintro (h | ⟨y, x, v, h1, h2⟩)
      · exact absurd h (by simp)
      · refine ⟨y, x, v, (Candidates.contains_iff_testBit _ _).mpr h1, ?_⟩
        cases hc : Candidates.Contains ((CandidateLines ab).1.cands y x) v
        · rfl
        · rw [Candidates.contains_iff_testBit] at hc
          rw [show (CandidateLines ab).1.cands =
              ((List.range (sqrt (boardSize ab.board))).foldl (fun s blkY =>
                (List.range (sqrt (boardSize ab.board))).foldl (fun s2 blkX =>
                  blockStep (boardSize ab.board) (sqrt (boardSize ab.board)) blkY blkX s2) s)
                (ab.cands, false)).1 from rfl] at hc
          rw [hc] at h2
          exact absurd h2 (by simp)
    · rintro ⟨y, x, v, h1, h2⟩
      refine Or.inr ⟨y, x, v, (Candidates.contains_iff_testBit _ _).mp h1, ?_⟩
      rw [show ((List.range (sqrt (boardSize ab.board))).foldl (fun s blkY =>
          (List.range (sqrt (boardSize ab.board))).foldl (fun s2 blkX =>
            blockStep (boardSize ab.board) (sqrt (boardSize ab.board)) blkY blkX s2) s)
          (ab.cands, false)).1 = (CandidateLines ab).1.cands from rfl]
      cases hc : ((CandidateLines ab).1.cands y x).testBit v
      · rfl
      · rw [← Candidates.contains_iff_testBit] at hc
        rw [hc] at h2
        exact absurd h2 (by simp)

theorem foldl_prod {α β St : Type} (f : α → β → St → St) :
    ∀ (l1 : List α) (l2 : List β) (init : St),
      l1.foldl (fun s y => l2.foldl (fun s2 x => f y x s2) s) init
      = (l1.flatMap fun y => l2.map fun x => (y, x)).foldl
          (fun s p => f p.1 p.2 s) init := by
  intro l1
  induction l1 with
  | nil => intro l2 init; rfl
  | cons y t ih =>
    intro l2 init
    rw [List.foldl_cons, List.flatMap_cons, List.foldl_append, List.foldl_map, ih]

/-- C2 (amended): one `CandidateLines` pass is the sequential left fold of
the per-block step over the blocks in row-major order, where each block's
occurrence maps are built (inside `blockStep`) from the output copy's
candidate grid as it stands when that block is reached — so removals made
by earlier blocks are visible to later blocks' maps; the board itself is
returned unchanged. -/
theorem candidateLines_blocks_sequential (ab : AnnotatedBoard) :
    ((CandidateLines ab).1.cands, (CandidateLines ab).2) =
      (blockIndices (sqrt (boardSize ab.board))).foldl
        (fun s p => blockStep (boardSize ab.board) (sqrt (boardSize ab.board)) p.1 p.2 s)
        (ab.cands, false) ∧
    (CandidateLines ab).1.board = ab.board := by
  refine ⟨?_, rfl⟩
  exact foldl_prod
    (fun blkY blkX s2 =>
      blockStep (boardSize ab.board) (sqrt (boardSize ab.board)) blkY blkX s2)
    (List.range (sqrt (boardSize ab.board)))
    (List.range (sqrt (boardSize ab.board))) (ab.cands, false)

/-- The 4×4 candidate grid holding candidate value 1 (mask 2) at cells
(0,0), (0,1), (0,2), (0,3), (1,2) and (2,2); the board itself is empty.
Block (0,0) confines value 1 to row 0 and removes it from (0,2) and (0,3),
after which block (0,1) sees value 1 confined to row 1 / column 2. -/
def cexAB : AnnotatedBoard :=
  ⟨List.replicate 4 (List.replicate 4 0),
    fun y x => if y = 0 ∨ (y = 1 ∧ x = 2) ∨ (y = 2 ∧ x = 2) then 2 else 0⟩

/-- C2 counterexample: on `cexAB`, the occurrence map `inRows` that the
pass builds for block (0,1) (after block (0,0) has been processed) differs
from the map built from the original input candidates, and the resulting
deductions differ — the code keeps candidate 1 at (1,2) and removes it at
(2,2), while the snapshot semantics described by the spec does the
opposite. -/
theorem candidateLines_snapshot_cex :
    (buildMaps 4 (blockStep 4 2 0 0 (cexAB.cands, false)).1 2 0 1).inRows 1 ≠
      (buildMaps 4 cexAB.cands 2 0 1).inRows 1 ∧
    Candidates.Contains ((CandidateLines cexAB).1.cands 1 2) 1 = true ∧
    Candidates.Contains ((CandidateLinesSnap cexAB).1.cands 1 2) 1 = false ∧
    Candidates.Contains ((CandidateLines cexAB).1.cands 2 2) 1 = false ∧
    Candidates.Contains ((CandidateLinesSnap cexAB).1.cands 2 2) 1 = true := by
  refine ⟨by decide, by decide, by decide, by decide, by decide⟩

theorem upd1_apply (f : Nat → Nat) (i v j : Nat) :
    upd1 f i v j = if j = i then v else f j := rfl

theorem upd2_apply (f : Nat → Nat → Nat) (y x v y2 x2 : Nat) :
    upd2 f y x v y2 x2 = if y2 = y ∧ x2 = x then v else f y2 x2 := rfl

theorem rowCells_mem (y0 : Nat) (row : List Nat) :
    ∀ (x0 y x v : Nat), ((y, x, v) ∈ rowCells y0 x0 row ↔
      (y = y0 ∧ x0 ≤ x ∧ x - x0 < row.length ∧ v = row.getD (x - x0) 0)) := by
  induction row with
  | nil => intro x0 y x v; simp [rowCells]
  | cons w rest ih =>
    intro x0 y x v
    rw [rowCells, List.mem_cons, ih (x0 + 1)]
    constructor
    · rintro (h | ⟨h1, h2, h3, h4⟩)
      · simp only [Prod.mk.injEq] at h
        obtain ⟨hy, hx, hv⟩ := h
        subst hy; subst hx; subst hv
        refine ⟨rfl, Nat.le_refl _, ?_, ?_⟩
        · simp
        · simp
      · refine ⟨h1, by omega, ?_, ?_⟩
        · simp only [List.length_cons]; omega
        · have hd : x - x0 = (x - (x0 + 1)) + 1 := by omega
          rw [hd]
          simp [h4]
    · rintro ⟨h1, h2, h3, h4⟩
      by_cases hx : x = x0
      · subst hx; subst h1
        left
        have : x - x = 0 := by omega
        rw [this] at h4
        simp at h4
        rw [h4]
      · right
        refine ⟨h1, by omega, by simp at h3; omega, ?_⟩
        have hd : x - x0 = (x - (x0 + 1)) + 1 := by omega
        rw [hd] at h4
        simpa using h4

theorem boardCells_mem (rows : Board) :
    ∀ (y0 y x v : Nat), ((y, x, v) ∈ boardCells y0 rows ↔
      (y0 ≤ y ∧ y - y0 < rows.length ∧ x < (rows.getD (y - y0) []).length ∧
        v = (rows.getD (y - y0) []).getD x 0)) := by
  induction rows with
  | nil => intro y0 y x v; simp [boardCells]
  | cons row rest ih =>
    intro y0 y x v
    rw [boardCells, List.mem_append, rowCells_mem, ih (y0 + 1)]
    constructor
    · rintro (⟨h1, h2, h3, h4⟩ | ⟨h1, h2, h3, h4⟩)
      · subst h1
        have hz : y - y = 0 := by omega
        rw [hz]
        refine ⟨Nat.le_refl _, by simp, ?_, ?_⟩
        · simpa using h3
        · simpa using h4
      · have hd : y - y0 = (y - (y0 + 1)) + 1 := by omega
        rw [hd]
        refine ⟨by omega, by simp only [List.length_cons]; omega, ?_, ?_⟩
        · simpa using h3
        · simpa using h4
    · rintro ⟨h1, h2, h3, h4⟩
      by_cases hy : y = y0
      · subst hy
        left
        have hz : y - y = 0 := by omega
        rw [hz] at h3 h4
        simp only [List.getD_cons_zero] at h3 h4
        exact ⟨rfl, by omega, by simpa using h3, h4⟩
      · right
        have hd : y - y0 = (y - (y0 + 1)) + 1 := by omega
        rw [hd] at h3 h4
        simp only [List.getD_cons_succ] at h3 h4
        refine ⟨by omega, ?_, h3, h4⟩
        simp only [List.length_cons] at h2
        omega

theorem cellsOf_mem (bo : Board) (y x v : Nat) :
    (y, x, v) ∈ cellsOf bo ↔
      (y < bo.length ∧ x < (bo.getD y []).length ∧ v = getD2 bo y x) := by
  unfold cellsOf getD2
  rw [boardCells_mem]
  have hz : y - 0 = y := by omega
  rw [hz]
  constructor
  · rintro ⟨_, h2, h3, h4⟩; exact ⟨h2, h3, h4⟩
  · rintro ⟨h2, h3, h4⟩; exact ⟨Nat.zero_le _, h2, h3, h4⟩

theorem rowCells_nodup (y0 : Nat) (row : List Nat) :
    ∀ x0, (rowCells y0 x0 row).Nodup := by
  induction row with
  | nil => intro x0; simp [rowCells]
  | cons w rest ih =>
    intro x0
    rw [rowCells]
    refine List.Nodup.cons ?_ (ih (x0 + 1))
    intro hmem
    rw [rowCells_mem] at hmem
    omega

theorem boardCells_nodup (rows : Board) : ∀ y0, (boardCells y0 rows).Nodup := by
  induction rows with
  | nil => intro y0; simp [boardCells]
  | cons row rest ih =>
    intro y0
    rw [boardCells]
    rw [List.nodup_append]
    refine ⟨rowCells_nodup y0 row 0, ih (y0 + 1), ?_⟩
    intro c hc1 hc2
    obtain ⟨y, x, v⟩ := c
    rw [rowCells_mem] at hc1
    rw [boardCells_mem] at hc2
    omega

theorem cellsOf_nodup (bo : Board) : (cellsOf bo).Nodup := boardCells_nodup bo 0

theorem exists_ordered_split {α : Type} {a b : α} :
    ∀ {l : List α}, a ∈ l → b ∈ l → a ≠ b →
      ∃ l1 z w l2, l = l1 ++ z :: l2 ∧ w ∈ l1 ∧
        ((z = a ∧ w = b) ∨ (z = b ∧ w = a)) := by
  intro l
  induction l with
  | nil => intro ha; simp at ha
  | cons h t ih =>
    intro ha hb hne
    by_cases hha : h = a
    · subst hha
      have hbt : b ∈ t := by
        rcases List.mem_cons.mp hb with hb1 | hb1
        · exact absurd hb1.symm hne
        · exact hb1
      obtain ⟨t1, t2, rfl⟩ := List.append_of_mem hbt
      exact ⟨h :: t1, b, h, t2, rfl, List.mem_cons_self h t1,
        Or.inr ⟨rfl, rfl⟩⟩
    · by_cases hhb : h = b
      · subst hhb
        have hat : a ∈ t := by
          rcases List.mem_cons.mp ha with ha1 | ha1
          · exact absurd ha1.symm hha
          · exact ha1
        obtain ⟨t1, t2, rfl⟩ := List.append_of_mem hat
        exact ⟨h :: t1, a, h, t2, rfl, List.mem_cons_self h t1,
          Or.inl ⟨rfl, rfl⟩⟩
      · have hat : a ∈ t := by
          rcases List.mem_cons.mp ha with ha1 | ha1
          · exact absurd ha1.symm hha
          · exact ha1
        have hbt : b ∈ t := by
          rcases List.mem_cons.mp hb with hb1 | hb1
          · exact absurd hb1.symm hhb
          · exact hb1
        obtain ⟨l1, z, w, l2, heq, hw, hcase⟩ := ih hat hbt hne
        exact ⟨h :: l1, z, w, l2, by rw [heq]; rfl,
          List.mem_cons_of_mem h hw, hcase⟩

theorem annotFold_append (rt : Nat) (P : List (Nat × Nat × Nat)) :
    ∀ (Q : List (Nat × Nat × Nat)) (st : AnnSt),
      annotFold rt (P ++ Q) st =
        match annotFold rt P st with
        | Except.ok st1 => annotFold rt Q st1
        | Except.error e => Except.error e := by
  induction P with
  | nil => intro Q st; rfl
  | cons c rest ih =>
    intro Q st
    rw [List.cons_append, annotFold, annotFold]
    cases annotCell rt st c with
    | ok st3 => exact ih Q st3
    | error e => rfl

theorem annotFold_ok_char (rt : Nat) :
    ∀ (L : List (Nat × Nat × Nat)) (st st2 : AnnSt),
      annotFold rt L st = Except.ok st2 →
      (∀ y w, ((st2.rows y).testBit w = true ↔
        ((st.rows y).testBit w = true ∨ (0 < w ∧ ∃ x, (y, x, w) ∈ L)))) ∧
      (∀ x w, ((st2.cols x).testBit w = true ↔
        ((st.cols x).testBit w = true ∨ (0 < w ∧ ∃ y, (y, x, w) ∈ L)))) ∧
      (∀ b1 b2 w, ((st2.blocks b1 b2).testBit w = true ↔
        ((st.blocks b1 b2).testBit w = true ∨
          (0 < w ∧ ∃ y x, (y, x, w) ∈ L ∧ y / rt = b1 ∧ x / rt = b2)))) ∧
      (∀ y x w, ((st2.cands y x).testBit w = true ↔
        ((st.cands y x).testBit w = true ∨ (0 < w ∧ (y, x, w) ∈ L)))) := by
  intro L
  induction L with
  | nil =>
    intro st st2 h
    rw [annotFold] at h
    cases h
    refine ⟨fun y w => ?_, fun x w => ?_, fun b1 b2 w => ?_, fun y x w => ?_⟩ <;>
      simp
  | cons c rest ih =>
    obtain ⟨y0, x0, v0⟩ := c
    intro st st2 h
    rw [annotFold, annotCell] at h
    by_cases hv : 0 < v0
    · rw [if_pos hv] at h
      by_cases hchk : (Candidates.Contains (st.rows y0) v0 ||
          Candidates.Contains (st.cols x0) v0 ||
          Candidates.Contains (st.blocks (y0 / rt) (x0 / rt)) v0) = true
      · rw [if_pos hchk] at h
        simp at h
      · rw [if_neg hchk] at h
        simp only [] at h
        obtain ⟨ihr, ihc, ihb, ihk⟩ := ih _ _ h
        refine ⟨fun y w => ?_, fun x w => ?_, fun b1 b2 w => ?_, fun y x w => ?_⟩
        · rw [ihr y w]
          simp only [upd1_apply]
          by_cases hy : y = y0
          · subst hy
            rw [if_pos rfl, Candidates.testBit_add]
            constructor
            · intro hcase
              rcases hcase with hcase | hcase
              · rcases Bool.or_eq_true_iff.mp hcase with h1 | h1
                · exact Or.inl h1
                · have hwv : w = v0 := of_decide_eq_true h1
                  subst hwv
                  exact Or.inr ⟨hv, x0, List.mem_cons_self _ _⟩
              · exact Or.inr ⟨hcase.1, hcase.2.choose,
                  List.mem_cons_of_mem _ hcase.2.choose_spec⟩
            · rintro (h1 | ⟨hw, x, hx⟩)
              · exact Or.inl (Bool.or_eq_true_iff.mpr (Or.inl h1))
              · rcases List.mem_cons.mp hx with hx | hx
                · simp only [Prod.mk.injEq] at hx
                  exact Or.inl (Bool.or_eq_true_iff.mpr
                    (Or.inr (decide_eq_true hx.2.2)))
                · exact Or.inr ⟨hw, x, hx⟩
          · rw [if_neg hy]
            constructor
            · rintro (h1 | ⟨hw, x, hx⟩)
              · exact Or.inl h1
              · exact Or.inr ⟨hw, x, List.mem_cons_of_mem _ hx⟩
            · rintro (h1 | ⟨hw, x, hx⟩)
              · exact Or.inl h1
              · rcases List.mem_cons.mp hx with hx | hx
                · simp only [Prod.mk.injEq] at hx
                  exact absurd hx.1 hy
                · exact Or.inr ⟨hw, x, hx⟩
        · rw [ihc x w]
          simp only [upd1_apply]
          by_cases hx : x = x0
          · subst hx
            rw [if_pos rfl, Candidates.testBit_add]
            constructor
            · intro hcase
              rcases hcase with hcase | hcase
              · rcases Bool.or_eq_true_iff.mp hcase with h1 | h1
                · exact Or.inl h1
                · have hwv : w = v0 := of_decide_eq_true h1
                  subst hwv
                  exact Or.inr ⟨hv, y0, List.mem_cons_self _ _⟩
              · exact Or.inr ⟨hcase.1, hcase.2.choose,
                  List.mem_cons_of_mem _ hcase.2.choose_spec⟩
            · rintro (h1 | ⟨hw, y, hy⟩)
              · exact Or.inl (Bool.or_eq_true_iff.mpr (Or.inl h1))
              · rcases List.mem_cons.mp hy with hy | hy
                · simp only [Prod.mk.injEq] at hy
                  exact Or.inl (Bool.or_eq_true_iff.mpr
                    (Or.inr (decide_eq_true hy.2.2)))
                · exact Or.inr ⟨hw, y, hy⟩
          · rw [if_neg hx]
            constructor
            · rintro (h1 | ⟨hw, y, hy⟩)
              · exact Or.inl h1
              · exact Or.inr ⟨hw, y, List.mem_cons_of_mem _ hy⟩
            · rintro (h1 | ⟨hw, y, hy⟩)
              · exact Or.inl h1
              · rcases List.mem_cons.mp hy with hy | hy
                · simp only [Prod.mk.injEq] at hy
                  exact absurd hy.2.1 hx
                · exact Or.inr ⟨hw, y, hy⟩
        · rw [ihb b1 b2 w]
          simp only [upd2_apply]
          by_cases hb : b1 = y0 / rt ∧ b2 = x0 / rt
          · rw [if_pos hb, Candidates.testBit_add]
            constructor
            · intro hcase
              rcases hcase with hcase | hcase
              · rcases Bool.or_eq_true_iff.mp hcase with h1 | h1
                · rw [hb.1, hb.2]
                  exact Or.inl h1
                · have hwv : w = v0 := of_decide_eq_true h1
                  subst hwv
                  exact Or.inr ⟨hv, y0, x0, List.mem_cons_self _ _, hb.1.symm, hb.2.symm⟩
              · obtain ⟨hw, y, x, hmem, hy, hx⟩ := hcase
                exact Or.inr ⟨hw, y, x, List.mem_cons_of_mem _ hmem, hy, hx⟩
            · rintro (h1 | ⟨hw, y, x, hmem, hy, hx⟩)
              · rw [hb.1, hb.2] at h1
                exact Or.inl (Bool.or_eq_true_iff.mpr (Or.inl h1))
              · rcases List.mem_cons.mp hmem with hm | hm
                · simp only [Prod.mk.injEq] at hm
                  exact Or.inl (Bool.or_eq_true_iff.mpr
                    (Or.inr (decide_eq_true hm.2.2)))
                · exact Or.inr ⟨hw, y, x, hm, hy, hx⟩
          · rw [if_neg hb]
            constructor
            · rintro (h1 | ⟨hw, y, x, hmem, hy, hx⟩)
              · exact Or.inl h1
              · exact Or.inr ⟨hw, y, x, List.mem_cons_of_mem _ hmem, hy, hx⟩
            · rintro (h1 | ⟨hw, y, x, hmem, hy, hx⟩)
              · exact Or.inl h1
              · rcases List.mem_cons.mp hmem with hm | hm
                · simp only [Prod.mk.injEq] at hm
                  exact absurd ⟨hy ▸ hm.1 ▸ rfl, hx ▸ hm.2.1 ▸ rfl⟩ hb
                · exact Or.inr ⟨hw, y, x, hm, hy, hx⟩
        · rw [ihk y x w]
          simp only [upd2_apply]
          by_cases hc : y = y0 ∧ x = x0
          · rw [if_pos hc, Candidates.testBit_add]
            constructor
            · intro hcase
              rcases hcase with hcase | hcase
              · rcases Bool.or_eq_true_iff.mp hcase with h1 | h1
                · rw [hc.1, hc.2]
                  exact Or.inl h1
                · have hwv : w = v0 := of_decide_eq_true h1
                  subst hwv
                  refine Or.inr ⟨hv, ?_⟩
                  rw [hc.1, hc.2]
                  exact List.mem_cons_self _ _
              · exact Or.inr ⟨hcase.1, List.mem_cons_of_mem _ hcase.2⟩
            · rintro (h1 | ⟨hw, hmem⟩)
              · rw [hc.1, hc.2] at h1
                exact Or.inl (Bool.or_eq_true_iff.mpr (Or.inl h1))
              · rcases List.mem_cons.mp hmem with hm | hm
                · simp only [Prod.mk.injEq] at hm
                  exact Or.inl (Bool.or_eq_true_iff.mpr
                    (Or.inr (decide_eq_true hm.2.2)))
                · exact Or.inr ⟨hw, hm⟩
          · rw [if_neg hc]
            constructor
            · rintro (h1 | ⟨hw, hmem⟩)
              · exact Or.inl h1
              · exact Or.inr ⟨hw, List.mem_cons_of_mem _ hmem⟩
            · rintro (h1 | ⟨hw, hmem⟩)
              · exact Or.inl h1
              · rcases List.mem_cons.mp hmem with hm | hm
                · simp only [Prod.mk.injEq] at hm
                  exact absurd ⟨hm.1, hm.2.1⟩ hc
                · exact Or.inr ⟨hw, hm⟩
    · rw [if_neg hv] at h
      simp only [] at h
      obtain ⟨ihr, ihc, ihb, ihk⟩ := ih _ _ h
      have hmem : ∀ (y x w : Nat), 0 < w →
          ((y, x, w) ∈ (y0, x0, v0) :: rest ↔ (y, x, w) ∈ rest) := by
        intro y x w hw
        rw [List.mem_cons]
        constructor
        · rintro (hm | hm)
          · simp only [Prod.mk.injEq] at hm
            omega
          · exact hm
        · exact fun hm => Or.inr hm
      refine ⟨fun y w => ?_, fun x w => ?_, fun b1 b2 w => ?_, fun y x w => ?_⟩
      · rw [ihr y w]
        constructor
        · rintro (h1 | ⟨hw, x, hx⟩)
          · exact Or.inl h1
          · exact Or.inr ⟨hw, x, (hmem y x w hw).mpr hx⟩
        · rintro (h1 | ⟨hw, x, hx⟩)
          · exact Or.inl h1
          · exact Or.inr ⟨hw, x, (hmem y x w hw).mp hx⟩
      · rw [ihc x w]
        constructor
        · rintro (h1 | ⟨hw, y, hy⟩)
          · exact Or.inl h1
          · exact Or.inr ⟨hw, y, (hmem y x w hw).mpr hy⟩
        · rintro (h1 | ⟨hw, y, hy⟩)
          · exact Or.inl h1
          · exact Or.inr ⟨hw, y, (hmem y x w hw).mp hy⟩
      · rw [ihb b1 b2 w]
        constructor
        · rintro (h1 | ⟨hw, y, x, hm, hy, hx⟩)
          · exact Or.inl h1
          · exact Or.inr ⟨hw, y, x, (hmem y x w hw).mpr hm, hy, hx⟩
        · rintro (h1 | ⟨hw, y, x, hm, hy, hx⟩)
          · exact Or.inl h1
          · exact Or.inr ⟨hw, y, x, (hmem y x w hw).mp hm, hy, hx⟩
      · rw [ihk y x w]
        constructor
        · rintro (h1 | ⟨hw, hm⟩)
          · exact Or.inl h1
          · exact Or.inr ⟨hw, (hmem y x w hw).mpr hm⟩
        · rintro (h1 | ⟨hw, hm⟩)
          · exact Or.inl h1
          · exact Or.inr ⟨hw, (hmem y x w hw).mp hm⟩

theorem annotFold_err (rt : Nat) :
    ∀ (L : List (Nat × Nat × Nat)) (st st2 : AnnSt),
      annotFold rt L st = Except.error st2 →
      ∃ P y x v Q, L = P ++ (y, x, v) :: Q ∧ 0 < v ∧
        annotFold rt P st = Except.ok st2 ∧
        (Candidates.Contains (st2.rows y) v ||
          Candidates.Contains (st2.cols x) v ||
          Candidates.Contains (st2.blocks (y / rt) (x / rt)) v) = true := by
  intro L
  induction L with
  | nil =>
    intro st st2 h
    rw [annotFold] at h
    simp at h
  | cons c rest ih =>
    obtain ⟨y0, x0, v0⟩ := c
    intro st st2 h
    rw [annotFold, annotCell] at h
    by_cases hv : 0 < v0
    · rw [if_pos hv] at h
      by_cases hchk : (Candidates.Contains (st.rows y0) v0 ||
          Candidates.Contains (st.cols x0) v0 ||
          Candidates.Contains (st.blocks (y0 / rt) (x0 / rt)) v0) = true
      · rw [if_pos hchk] at h
        simp only [Except.error.injEq] at h
        subst h
        exact ⟨[], y0, x0, v0, rest, rfl, hv, rfl, hchk⟩
      · rw [if_neg hchk] at h
        simp only [] at h
        obtain ⟨P, y, x, v, Q, hL, hv2, hok, hchk2⟩ := ih _ _ h
        refine ⟨(y0, x0, v0) :: P, y, x, v, Q, by rw [hL]; rfl, hv2, ?_, hchk2⟩
        rw [annotFold, annotCell, if_pos hv, if_neg hchk]
        exact hok
    · rw [if_neg hv] at h
      simp only [] at h
      obtain ⟨P, y, x, v, Q, hL, hv2, hok, hchk2⟩ := ih _ _ h
      refine ⟨(y0, x0, v0) :: P, y, x, v, Q, by rw [hL]; rfl, hv2, ?_, hchk2⟩
      rw [annotFold, annotCell, if_neg hv]
      exact hok

theorem row_length_of_square {bo : Board} {n : Nat} (hsq : Square bo n)
    {y : Nat} (hy : y < n) : (bo.getD y []).length = n := by
  apply hsq.2
  have hylen : y < bo.length := by rw [hsq.1]; exact hy
  rw [List.getD_eq_getElem?_getD, List.getElem?_eq_getElem hylen]
  exact List.getElem_mem hylen

/-- A non-zero value occurs at two distinct cells of the board that share a
row, a column, or a block (for block side `rt`). -/
def HasDuplicate (bo : Board) (n rt : Nat) : Prop :=
  ∃ y1 x1 y2 x2, y1 < n ∧ x1 < n ∧ y2 < n ∧ x2 < n ∧ (y1, x1) ≠ (y2, x2) ∧
    0 < getD2 bo y1 x1 ∧ getD2 bo y1 x1 = getD2 bo y2 x2 ∧
    (y1 = y2 ∨ x1 = x2 ∨ (y1 / rt = y2 / rt ∧ x1 / rt = x2 / rt))

/-- Helper: annotation fails iff the board holds a same-line duplicate. -/
theorem annotate_error_iff_dup_aux {bo : Board} {n : Nat} (hsq : Square bo n) :
    ((Annotate bo).2 = false ↔ HasDuplicate bo n (sqrt n)) := by
  have hbs : boardSize bo = n := boardSize_of_square hsq
  have hlen : bo.length = n := hsq.1
  constructor
  · intro herr
    unfold Annotate at herr
    rw [hbs] at herr
    cases hfold : annotFold (sqrt n) (cellsOf bo) annotInit with
    | ok st => rw [hfold] at herr; simp at herr
    | error st =>
      obtain ⟨P, yc, xc, vc, Q, hsplit, hvc, hokP, hchk⟩ :=
        annotFold_err (sqrt n) (cellsOf bo) annotInit st hfold
      obtain ⟨chr, chc, chb, _⟩ := annotFold_ok_char (sqrt n) P annotInit st hokP
      have hcur : (yc, xc, vc) ∈ cellsOf bo := by
        rw [hsplit]
        exact List.mem_append_right _ (List.mem_cons_self _ _)
      obtain ⟨hyc, hxc, hvcval⟩ := (cellsOf_mem bo yc xc vc).mp hcur
      have hycn : yc < n := by omega
      have hxcn : xc < n := by
        have := row_length_of_square hsq hycn
        omega
      have hnotinP : (yc, xc, vc) ∉ P := by
        have hnd := cellsOf_nodup bo
        rw [hsplit] at hnd
        have hd := (List.nodup_append.mp hnd).2.2
        intro hmem
        exact hd hmem (List.mem_cons_self _ _)
      have hPsub : ∀ c, c ∈ P → c ∈ cellsOf bo := by
        intro c hc
        rw [hsplit]
        exact List.mem_append_left _ hc
      rcases Bool.or_eq_true_iff.mp hchk with hor | hblk
      · rcases Bool.or_eq_true_iff.mp hor with hrow | hcol
        · rw [Candidates.contains_iff_testBit, chr yc vc] at hrow
          rcases hrow with hz | ⟨hw, x1, hx1⟩
          · rw [show annotInit.rows yc = 0 from rfl, Nat.zero_testBit] at hz
            exact absurd hz (by simp)
          · obtain ⟨hy1b, hx1b, hval1⟩ := (cellsOf_mem bo yc x1 vc).mp (hPsub _ hx1)
            have hx1n : x1 < n := by
              have := row_length_of_square hsq hycn
              omega
            refine ⟨yc, x1, yc, xc, hycn, hx1n, hycn, hxcn, ?_, by omega, by omega,
              Or.inl rfl⟩
            intro hpair
            simp only [Prod.mk.injEq] at hpair
            apply hnotinP
            have : xc = x1 := hpair.2.symm
            subst this
            exact hx1
        · rw [Candidates.contains_iff_testBit, chc xc vc] at hcol
          rcases hcol with hz | ⟨hw, y1, hy1⟩
          · rw [show annotInit.cols xc = 0 from rfl, Nat.zero_testBit] at hz
            exact absurd hz (by simp)
          · obtain ⟨hy1b, hx1b, hval1⟩ := (cellsOf_mem bo y1 xc vc).mp (hPsub _ hy1)
            have hy1n : y1 < n := by omega
            refine ⟨y1, xc, yc, xc, hy1n, hxcn, hycn, hxcn, ?_, by omega, by omega,
              Or.inr (Or.inl rfl)⟩
            intro hpair
            simp only [Prod.mk.injEq] at hpair
            apply hnotinP
            have : yc = y1 := hpair.1.symm
            subst this
            exact hy1
      · rw [Candidates.contains_iff_testBit, chb (yc / sqrt n) (xc / sqrt n) vc]
          at hblk
        rcases hblk with hz | ⟨hw, y1, x1, hm1, hby, hbx⟩
        · rw [show annotInit.blocks (yc / sqrt n) (xc / sqrt n) = 0 from rfl,
            Nat.zero_testBit] at hz
          exact absurd hz (by simp)
        · obtain ⟨hy1b, hx1b, hval1⟩ := (cellsOf_mem bo y1 x1 vc).mp (hPsub _ hm1)
          have hy1n : y1 < n := by omega
          have hx1n : x1 < n := by
            have := row_length_of_square hsq hy1n
            omega
          refine ⟨y1, x1, yc, xc, hy1n, hx1n, hycn, hxcn, ?_, by omega, by omega,
            Or.inr (Or.inr ⟨hby, hbx⟩)⟩
          intro hpair
          simp only [Prod.mk.injEq] at hpair
          apply hnotinP
          have h1 : yc = y1 := hpair.1.symm
          have h2 : xc = x1 := hpair.2.symm
          subst h1; subst h2
          exact hm1
  · intro hdup
    obtain ⟨y1, x1, y2, x2, hy1, hx1, hy2, hx2, hne, hpos, heq, hline⟩ := hdup
    cases hAnn : (Annotate bo).2 with
    | false => rfl
    | true =>
      exfalso
      unfold Annotate at hAnn
      rw [hbs] at hAnn
      cases hfold : annotFold (sqrt n) (cellsOf bo) annotInit with
      | error st => rw [hfold] at hAnn; simp at hAnn
      | ok st =>
        have hc1 : (y1, x1, getD2 bo y1 x1) ∈ cellsOf bo := by
          rw [cellsOf_mem]
          have := row_length_of_square hsq hy1
          refine ⟨by omega, by omega, rfl⟩
        have hc2 : (y2, x2, getD2 bo y1 x1) ∈ cellsOf bo := by
          rw [cellsOf_mem]
          have := row_length_of_square hsq hy2
          refine ⟨by omega, by omega, heq⟩
        have hne2 : (y1, x1, getD2 bo y1 x1) ≠ (y2, x2, getD2 bo y1 x1) := by
          intro hcontra
          simp only [Prod.mk.injEq] at hcontra
          exact hne (by rw [hcontra.1, hcontra.2.1])
        obtain ⟨l1, z, w, l2, hsplit, hwin, hzw⟩ :=
          exists_ordered_split hc1 hc2 hne2
        rw [hsplit, annotFold_append] at hfold
        cases hl1 : annotFold (sqrt n) l1 annotInit with
        | error e => rw [hl1] at hfold; simp at hfold
        | ok st1 =>
          rw [hl1] at hfold
          simp only [] at hfold
          obtain ⟨chr, chc, chb, _⟩ := annotFold_ok_char (sqrt n) l1 annotInit st1 hl1
          obtain ⟨yz, xz, yw, xw, hzeq, hweq, hcoords⟩ :
              ∃ yz xz yw xw, z = (yz, xz, getD2 bo y1 x1) ∧
                w = (yw, xw, getD2 bo y1 x1) ∧
                ((yz = y1 ∧ xz = x1 ∧ yw = y2 ∧ xw = x2) ∨
                  (yz = y2 ∧ xz = x2 ∧ yw = y1 ∧ xw = x1)) := by
            rcases hzw with ⟨hza, hwb⟩ | ⟨hzb, hwa⟩
            · exact ⟨y1, x1, y2, x2, hza, hwb, Or.inl ⟨rfl, rfl, rfl, rfl⟩⟩
            · exact ⟨y2, x2, y1, x1, hzb, hwa, Or.inr ⟨rfl, rfl, rfl, rfl⟩⟩
          subst hzeq
          subst hweq
          have hline2 : yz = yw ∨ xz = xw ∨
              (yz / sqrt n = yw / sqrt n ∧ xz / sqrt n = xw / sqrt n) := by
            rcases hcoords with ⟨ha, hb, hc, hd⟩ | ⟨ha, hb, hc, hd⟩ <;>
              subst ha <;> subst hb <;> subst hc <;> subst hd
            · exact hline
            · rcases hline with h | h | h
              · exact Or.inl h.symm
              · exact Or.inr (Or.inl h.symm)
              · exact Or.inr (Or.inr ⟨h.1.symm, h.2.symm⟩)
          have hcheck : (Candidates.Contains (st1.rows yz) (getD2 bo y1 x1) ||
              Candidates.Contains (st1.cols xz) (getD2 bo y1 x1) ||
              Candidates.Contains (st1.blocks (yz / sqrt n) (xz / sqrt n))
                (getD2 bo y1 x1)) = true := by
            rcases hline2 with hl | hl | hl
            · have hbit : (st1.rows yz).testBit (getD2 bo y1 x1) = true := by
                rw [chr yz (getD2 bo y1 x1)]
                exact Or.inr ⟨hpos, xw, by rw [hl]; exact hwin⟩
              rw [(Candidates.contains_iff_testBit _ _).mpr hbit]
              simp
            · have hbit : (st1.cols xz).testBit (getD2 bo y1 x1) = true := by
                rw [chc xz (getD2 bo y1 x1)]
                exact Or.inr ⟨hpos, yw, by rw [hl]; exact hwin⟩
              rw [(Candidates.contains_iff_testBit _ _).mpr hbit]
              simp
            · have hbit : (st1.blocks (yz / sqrt n) (xz / sqrt n)).testBit
                  (getD2 bo y1 x1) = true := by
                rw [chb (yz / sqrt n) (xz / sqrt n) (getD2 bo y1 x1)]
                exact Or.inr ⟨hpos, yw, xw, hwin, hl.1.symm, hl.2.symm⟩
              rw [(Candidates.contains_iff_testBit _ _).mpr hbit]
              simp
          rw [annotFold, annotCell, if_pos hpos, if_pos hcheck] at hfold
          simp at hfold

set_option linter.unusedVariables false in
/-- C5: `Annotate` returns the `"Not Solvable."` contradiction error iff
some non-zero value occurs twice in a row, twice in a column, or twice in a
block of the input board; on every board free of such duplicates the
annotation succeeds.  The second hypothesis states the spec's Board data
model (§3: entries lie in `[0, n]`), within which the `Nat` embedding of
the Go bitmasks is exact. -/
theorem annotate_error_iff_duplicate {bo : Board} {n : Nat} (hsq : Square bo n)
    (hvals : ∀ y, y < n → ∀ x, x < n → getD2 bo y x ≤ n) :
    ((Annotate bo).2 = false ↔ HasDuplicate bo n (sqrt n)) :=
  annotate_error_iff_dup_aux hsq

theorem annotate_error_iff_duplicate_witness :
    Square ([[1, 1], [2, 2]] : Board) 2 ∧
    (∀ y, y < 2 → ∀ x, x < 2 → getD2 [[1, 1], [2, 2]] y x ≤ 2) ∧
    ((Annotate [[1, 1], [2, 2]]).2 = false ↔
      HasDuplicate [[1, 1], [2, 2]] 2 (sqrt 2)) :=
  ⟨by decide, by decide, annotate_error_iff_duplicate (by decide) (by decide)⟩

/-- Helper: full characterisation of the candidate grid produced by a
successful annotation. -/
theorem annotate_char_aux {bo : Board} {n : Nat}
    (hsq : Square bo n)
    (hok : (Annotate bo).2 = true) :
    ∀ y, y < n → ∀ x, x < n →
      ((getD2 bo y x = 0 →
        ∀ w, (Candidates.Contains ((Annotate bo).1 y x) w = true ↔
          (1 ≤ w ∧ w ≤ n ∧
            (∀ x2, x2 < n → getD2 bo y x2 ≠ w) ∧
            (∀ y2, y2 < n → getD2 bo y2 x ≠ w) ∧
            (∀ y2 x2, y2 < n → x2 < n → y2 / sqrt n = y / sqrt n →
              x2 / sqrt n = x / sqrt n → getD2 bo y2 x2 ≠ w)))) ∧
      (0 < getD2 bo y x →
        ∀ w, (Candidates.Contains ((Annotate bo).1 y x) w = true ↔
          w = getD2 bo y x))) := by
  intro y hy x hx
  have hbs : boardSize bo = n := boardSize_of_square hsq
  have hlen : bo.length = n := hsq.1
  have hrow : ∀ y2, y2 < n → (bo.getD y2 []).length = n := by
    intro y2 hy2
    exact row_length_of_square hsq hy2
  unfold Annotate at hok ⊢
  rw [hbs] at hok ⊢
  cases hfold : annotFold (sqrt n) (cellsOf bo) annotInit with
  | error st => rw [hfold] at hok; simp at hok
  | ok st =>
    obtain ⟨chr, chc, chb, chk⟩ :=
      annotFold_ok_char (sqrt n) (cellsOf bo) annotInit st hfold
    constructor
    · intro hempty w
      have hcands0 : st.cands y x = 0 := by
        apply Nat.eq_of_testBit_eq
        intro i
        rw [Nat.zero_testBit]
        cases hbit : (st.cands y x).testBit i with
        | false => rfl
        | true =>
          rw [chk y x i] at hbit
          rcases hbit with hz | ⟨hi, hm⟩
          · rw [show annotInit.cands y x = 0 from rfl, Nat.zero_testBit] at hz
            exact hz.symm
          · obtain ⟨_, _, hval⟩ := (cellsOf_mem bo y x i).mp hm
            omega
      show Candidates.Contains (secondPass n (sqrt n) st y x) w = true ↔ _
      unfold secondPass
      rw [hcands0, if_neg (by omega)]
      rw [Candidates.contains_iff_testBit, testBit_andNot, testBit_andNot,
        testBit_andNot, Candidates.testBit_allCandidates]
      simp only [Bool.and_eq_true, Bool.not_eq_true', decide_eq_true_eq]
      constructor
      · rintro ⟨⟨⟨hd, hr⟩, hc⟩, hb⟩
        refine ⟨hd.1, hd.2, ?_, ?_, ?_⟩
        · intro x2 hx2 hcon
          have hm : (y, x2, w) ∈ cellsOf bo := by
            rw [cellsOf_mem]
            refine ⟨by omega, ?_, hcon.symm⟩
            rw [hrow y hy]
            exact hx2
          have : (st.rows y).testBit w = true :=
            (chr y w).mpr (Or.inr ⟨hd.1, x2, hm⟩)
          rw [this] at hr
          exact absurd hr (by simp)
        · intro y2 hy2 hcon
          have hm : (y2, x, w) ∈ cellsOf bo := by
            rw [cellsOf_mem]
            refine ⟨by omega, ?_, hcon.symm⟩
            rw [hrow y2 hy2]
            exact hx
          have : (st.cols x).testBit w = true :=
            (chc x w).mpr (Or.inr ⟨hd.1, y2, hm⟩)
          rw [this] at hc
          exact absurd hc (by simp)
        · intro y2 x2 hy2 hx2 hq1 hq2 hcon
          have hm : (y2, x2, w) ∈ cellsOf bo := by
            rw [cellsOf_mem]
            refine ⟨by omega, ?_, hcon.symm⟩
            rw [hrow y2 hy2]
            exact hx2
          have : (st.blocks (y / sqrt n) (x / sqrt n)).testBit w = true :=
            (chb (y / sqrt n) (x / sqrt n) w).mpr
              (Or.inr ⟨hd.1, y2, x2, hm, hq1, hq2⟩)
          rw [this] at hb
          exact absurd hb (by simp)
      · rintro ⟨h1, h2, hrown, hcoln, hblkn⟩
        refine ⟨⟨⟨⟨h1, h2⟩, ?_⟩, ?_⟩, ?_⟩
        · cases hbit : (st.rows y).testBit w with
          | false => rfl
          | true =>
            rw [chr y w] at hbit
            rcases hbit with hz | ⟨hw0, x2, hm⟩
            · rw [show annotInit.rows y = 0 from rfl, Nat.zero_testBit] at hz
              exact hz.symm
            · obtain ⟨hyb, hxb, hval⟩ := (cellsOf_mem bo y x2 w).mp hm
              rw [hrow y hy] at hxb
              exact absurd hval.symm (hrown x2 hxb)
        · cases hbit : (st.cols x).testBit w with
          | false => rfl
          | true =>
            rw [chc x w] at hbit
            rcases hbit with hz | ⟨hw0, y2, hm⟩
            · rw [show annotInit.cols x = 0 from rfl, Nat.zero_testBit] at hz
              exact hz.symm
            · obtain ⟨hyb, hxb, hval⟩ := (cellsOf_mem bo y2 x w).mp hm
              exact absurd hval.symm (hcoln y2 (by omega))
        · cases hbit : (st.blocks (y / sqrt n) (x / sqrt n)).testBit w with
          | false => rfl
          | true =>
            rw [chb (y / sqrt n) (x / sqrt n) w] at hbit
            rcases hbit with hz | ⟨hw0, y2, x2, hm, hq1, hq2⟩
            · rw [show annotInit.blocks (y / sqrt n) (x / sqrt n) = 0 from rfl,
                Nat.zero_testBit] at hz
              exact hz.symm
            · obtain ⟨hyb, hxb, hval⟩ := (cellsOf_mem bo y2 x2 w).mp hm
              have hy2n : y2 < n := by omega
              have hx2n : x2 < n := by rw [hrow y2 hy2n] at hxb; exact hxb
              exact absurd hval.symm (hblkn y2 x2 hy2n hx2n hq1 hq2)
    · intro hfilled w
      have hcands : st.cands y x = 2 ^ getD2 bo y x := by
        apply Nat.eq_of_testBit_eq
        intro i
        rw [Nat.testBit_two_pow]
        cases hbit : (st.cands y x).testBit i with
        | false =>
          symm
          rw [decide_eq_false_iff_not]
          intro hcon
          subst hcon
          have hm : (y, x, getD2 bo y x) ∈ cellsOf bo := by
            rw [cellsOf_mem]
            refine ⟨by omega, ?_, rfl⟩
            rw [hrow y hy]
            exact hx
          rw [(chk y x (getD2 bo y x)).mpr (Or.inr ⟨hfilled, hm⟩)] at hbit
          exact absurd hbit (by simp)
        | true =>
          symm
          rw [chk y x i] at hbit
          rcases hbit with hz | ⟨hi, hm⟩
          · rw [show annotInit.cands y x = 0 from rfl, Nat.zero_testBit] at hz
            exact absurd hz (by simp)
          · obtain ⟨_, _, hval⟩ := (cellsOf_mem bo y x i).mp hm
            rw [decide_eq_true_eq]
            exact hval.symm
      show Candidates.Contains (secondPass n (sqrt n) st y x) w = true ↔ _
      unfold secondPass
      rw [hcands, if_pos ?side]
      case side =>
        have h2 : (2 : Nat) ^ 1 ≤ 2 ^ getD2 bo y x :=
          Nat.pow_le_pow_right (by norm_num) (by omega)
        omega
      rw [Candidates.contains_iff_testBit, Nat.testBit_two_pow]
      constructor
      · intro h
        exact (of_decide_eq_true h).symm
      · intro h
        subst h
        simp

set_option linter.unusedVariables false in
/-- C4: on every square board whose side is a perfect square and on which
`Annotate` succeeds, each empty cell's candidate set is exactly the full
domain `{1..n}` minus the values already placed in its row, column and
block, and each filled cell's candidate set is the singleton holding
exactly its own value. -/
theorem annotate_candidates_characterisation {bo : Board} {n : Nat}
    (hsq : Square bo n) (hps : sqrt n * sqrt n = n)
    (hok : (Annotate bo).2 = true) :
    ∀ y, y < n → ∀ x, x < n →
      ((getD2 bo y x = 0 →
        ∀ w, (Candidates.Contains ((Annotate bo).1 y x) w = true ↔
          (1 ≤ w ∧ w ≤ n ∧
            (∀ x2, x2 < n → getD2 bo y x2 ≠ w) ∧
            (∀ y2, y2 < n → getD2 bo y2 x ≠ w) ∧
            (∀ y2 x2, y2 < n → x2 < n → y2 / sqrt n = y / sqrt n →
              x2 / sqrt n = x / sqrt n → getD2 bo y2 x2 ≠ w)))) ∧
      (0 < getD2 bo y x →
        ∀ w, (Candidates.Contains ((Annotate bo).1 y x) w = true ↔
          w = getD2 bo y x))) :=
  annotate_char_aux hsq hok

theorem annotate_candidates_characterisation_witness :
    Square ([[1, 0, 0, 0], [0, 2, 0, 0], [0, 0, 3, 0], [0, 0, 0, 4]] : Board) 4 ∧
    sqrt 4 * sqrt 4 = 4 ∧
    (Annotate [[1, 0, 0, 0], [0, 2, 0, 0], [0, 0, 3, 0], [0, 0, 0, 4]]).2 = true ∧
    (0 < getD2 [[1, 0, 0, 0], [0, 2, 0, 0], [0, 0, 3, 0], [0, 0, 0, 4]] 0 0 →
      ∀ w, (Candidates.Contains
        ((Annotate [[1, 0, 0, 0], [0, 2, 0, 0], [0, 0, 3, 0], [0, 0, 0, 4]]).1 0 0)
          w = true ↔
        w = getD2 [[1, 0, 0, 0], [0, 2, 0, 0], [0, 0, 3, 0], [0, 0, 0, 4]] 0 0)) :=
  ⟨by decide, by decide, by decide,
    (@annotate_candidates_characterisation
      [[1, 0, 0, 0], [0, 2, 0, 0], [0, 0, 3, 0], [0, 0, 0, 4]] 4
      (by decide) (by decide) (by decide) 0 (by decide) 0 (by decide)).2⟩

theorem firstEmptyRow_spec : ∀ (row : List Nat) (x0 x : Nat),
    firstEmptyRow x0 row = some x →
    x0 ≤ x ∧ x - x0 < row.length ∧ row.getD (x - x0) 0 = 0 := by
  intro row
  induction row with
  | nil => intro x0 x h; simp [firstEmptyRow] at h
  | cons v rest ih =>
    intro x0 x h
    rw [firstEmptyRow] at h
    by_cases hv : v = 0
    · rw [if_pos hv, Option.some.injEq] at h
      refine ⟨by omega, by simp only [List.length_cons]; omega, ?_⟩
      have hz : x - x0 = 0 := by omega
      rw [hz]
      simp [hv]
    · rw [if_neg hv] at h
      obtain ⟨h1, h2, h3⟩ := ih (x0 + 1) x h
      have hd : x - x0 = (x - (x0 + 1)) + 1 := by omega
      rw [hd]
      refine ⟨by omega, by simp only [List.length_cons]; omega, by simpa using h3⟩

theorem firstEmptyAux_spec : ∀ (rows : Board) (y0 y x : Nat),
    firstEmptyAux y0 rows = some (y, x) →
    y0 ≤ y ∧ y - y0 < rows.length ∧ x < (rows.getD (y - y0) []).length ∧
      (rows.getD (y - y0) []).getD x 0 = 0 := by
  intro rows
  induction rows with
  | nil => intro y0 y x h; simp [firstEmptyAux] at h
  | cons row rest ih =>
    intro y0 y x h
    rw [firstEmptyAux] at h
    cases hrow : firstEmptyRow 0 row with
    | some x1 =>
      rw [hrow, Option.some.injEq, Prod.mk.injEq] at h
      obtain ⟨hy, hx⟩ := h
      obtain ⟨_, h2, h3⟩ := firstEmptyRow_spec row 0 x1 hrow
      have hz : y - y0 = 0 := by omega
      rw [hz]
      simp only [List.getD_cons_zero, List.length_cons]
      refine ⟨by omega, by omega, ?_, ?_⟩
      · rw [← hx]
        simpa using h2
      · rw [← hx]
        simpa using h3
    | none =>
      rw [hrow] at h
      obtain ⟨h1, h2, h3, h4⟩ := ih (y0 + 1) y x h
      have hd : y - y0 = (y - (y0 + 1)) + 1 := by omega
      rw [hd]
      simp only [List.getD_cons_succ, List.length_cons]
      exact ⟨by omega, by omega, h3, h4⟩

theorem firstEmpty_spec {bo : Board} {y x : Nat} (h : firstEmpty bo = some (y, x)) :
    y < bo.length ∧ x < (bo.getD y []).length ∧ getD2 bo y x = 0 := by
  obtain ⟨_, h2, h3, h4⟩ := firstEmptyAux_spec bo 0 y x h
  have hz : y - 0 = y := by omega
  rw [hz] at h2 h3 h4
  exact ⟨by omega, h3, h4⟩

theorem getD_eq_getElem_of_lt {l : List Nat} {i : Nat} (h : i < l.length) :
    l.getD i 0 = l[i] := by
  rw [List.getD_eq_getElem?_getD, List.getElem?_eq_getElem h]
  rfl

theorem getDl_eq_getElem_of_lt {l : Board} {i : Nat} (h : i < l.length) :
    l.getD i [] = l[i] := by
  rw [List.getD_eq_getElem?_getD, List.getElem?_eq_getElem h]
  rfl

theorem set2_length (bo : Board) (y x v : Nat) :
    (set2 bo y x v).length = bo.length := List.length_set bo y _

theorem set2_row_self {bo : Board} {y : Nat} (hy : y < bo.length) (x v : Nat) :
    (set2 bo y x v).getD y [] = (bo.getD y []).set x v := by
  unfold set2
  rw [getDl_eq_getElem_of_lt (by rw [List.length_set]; exact hy)]
  simp

theorem set2_row_ne {bo : Board} {y y2 : Nat} (hne : y2 ≠ y) (x v : Nat) :
    (set2 bo y x v).getD y2 [] = bo.getD y2 [] := by
  unfold set2
  rw [List.getD_eq_getElem?_getD, List.getElem?_set_ne (fun h => hne h.symm),
    ← List.getD_eq_getElem?_getD]

theorem getD2_set2_self {bo : Board} {y x : Nat} (hy : y < bo.length)
    (hx : x < (bo.getD y []).length) (v : Nat) :
    getD2 (set2 bo y x v) y x = v := by
  unfold getD2
  rw [set2_row_self hy]
  rw [getD_eq_getElem_of_lt (by rw [List.length_set]; exact hx)]
  simp

theorem getD2_set2_ne {bo : Board} {y x y2 x2 : Nat}
    (hne : (y2, x2) ≠ (y, x)) (v : Nat) :
    getD2 (set2 bo y x v) y2 x2 = getD2 bo y2 x2 := by
  unfold getD2
  by_cases hy : y2 = y
  · subst hy
    have hx : x2 ≠ x := by
      intro hc
      exact hne (by rw [hc])
    by_cases hylen : y2 < bo.length
    · rw [set2_row_self hylen]
      rw [List.getD_eq_getElem?_getD, List.getElem?_set_ne (fun h => hx h.symm),
        ← List.getD_eq_getElem?_getD]
    · unfold set2
      rw [List.set_eq_of_length_le (by omega)]
  · rw [set2_row_ne hy]

theorem square_set2 {bo : Board} {n y x : Nat} (hsq : Square bo n)
    (hy : y < n) (v : Nat) : Square (set2 bo y x v) n := by
  refine ⟨by rw [set2_length]; exact hsq.1, ?_⟩
  intro row hrow
  unfold set2 at hrow
  rcases List.mem_or_eq_of_mem_set hrow with h | h
  · exact hsq.2 row h
  · subst h
    rw [List.length_set]
    apply hsq.2
    have hylen : y < bo.length := by rw [hsq.1]; exact hy
    rw [getDl_eq_getElem_of_lt hylen]
    exact List.getElem_mem hylen

theorem rowEmpty_set : ∀ (row : List Nat) (x v : Nat), x < row.length →
    row.getD x 0 = 0 → v ≠ 0 → rowEmpty (row.set x v) + 1 = rowEmpty row := by
  intro row
  induction row with
  | nil => intro x v h; simp at h
  | cons a rest ih =>
    intro x v hx h0 hv
    cases x with
    | zero =>
      simp only [List.getD_cons_zero] at h0
      subst h0
      rw [List.set_cons_zero]
      unfold rowEmpty
      rw [List.countP_cons, List.countP_cons]
      simp [hv]
    | succ x2 =>
      simp only [List.getD_cons_succ] at h0
      simp only [List.length_cons] at hx
      rw [List.set_cons_succ]
      unfold rowEmpty
      rw [List.countP_cons, List.countP_cons]
      have := ih x2 v (by omega) h0 hv
      unfold rowEmpty at this
      omega

theorem emptyCount_set2 : ∀ (bo : Board) (y x v : Nat), y < bo.length →
    x < (bo.getD y []).length → getD2 bo y x = 0 → v ≠ 0 →
    emptyCount (set2 bo y x v) + 1 = emptyCount bo := by
  intro bo
  induction bo with
  | nil => intro y x v h; simp at h
  | cons row rest ih =>
    intro y x v hy hx h0 hv
    cases y with
    | zero =>
      simp only [List.getD_cons_zero] at hx h0
      unfold set2
      simp only [List.getD_cons_zero, List.set_cons_zero]
      unfold emptyCount
      simp only [List.map_cons, List.sum_cons]
      have := rowEmpty_set row x v hx h0 hv
      omega
    | succ y2 =>
      simp only [List.getD_cons_succ] at hx h0
      simp only [List.length_cons] at hy
      unfold set2
      simp only [List.getD_cons_succ, List.set_cons_succ]
      unfold emptyCount
      simp only [List.map_cons, List.sum_cons]
      have := ih y2 x v (by omega) hx h0 hv
      unfold emptyCount set2 at this
      omega

theorem emptyCount_pos {bo : Board} {y x : Nat} (hy : y < bo.length)
    (hx : x < (bo.getD y []).length) (h0 : getD2 bo y x = 0) :
    0 < emptyCount bo := by
  have hrow : 0 < rowEmpty (bo.getD y []) := by
    unfold rowEmpty
    rw [List.countP_pos_iff]
    refine ⟨(bo.getD y [])[x], List.getElem_mem hx, ?_⟩
    unfold getD2 at h0
    rw [getD_eq_getElem_of_lt hx] at h0
    simp only [beq_iff_eq]
    exact h0
  have hmem : rowEmpty (bo.getD y []) ∈ bo.map rowEmpty := by
    apply List.mem_map_of_mem
    rw [getDl_eq_getElem_of_lt hy]
    exact List.getElem_mem hy
  have := List.single_le_sum (fun a _ => Nat.zero_le a) _ hmem
  unfold emptyCount
  omega

/-- The number of further solutions the backtracking search still wants
when `k` solutions are already recorded and the bound is `maxS`: one more
recording always stops the search when `maxS ≤ k` (in particular for the
"unbounded" sentinel −1), otherwise `maxS − k` more are needed. -/
def bud (maxS : Int) (k : Nat) : Nat :=
  if maxS ≤ (k : Int) then 1 else (maxS - k).toNat

theorem bud_pos (maxS : Int) (k : Nat) : 1 ≤ bud maxS k := by
  unfold bud
  split <;> omega

theorem btkLoop_take (f : Nat) (maxS : Int)
    (ihf : ∀ (bo : Board) (sols : List Board),
      btkF f bo maxS sols =
        (decide (bud maxS sols.length ≤ (enumF f bo).length),
          sols ++ (enumF f bo).take (bud maxS sols.length)))
    (bo : Board) (y x : Nat) :
    ∀ (vs : List Nat) (sols : List Board),
      btkLoop (fun b s => btkF f b maxS s) bo y x vs sols =
        (decide (bud maxS sols.length ≤
            ((vs.map (fun v => enumF f (set2 bo y x v))).flatten).length),
          sols ++ ((vs.map (fun v => enumF f (set2 bo y x v))).flatten).take
            (bud maxS sols.length)) := by
  intro vs
  induction vs with
  | nil =>
    intro sols
    rw [btkLoop]
    simp only [List.map_nil, List.flatten_nil, List.length_nil, List.take_nil,
      List.append_nil]
    have := bud_pos maxS sols.length
    rw [decide_eq_false (by omega)]
  | cons v rest ih =>
    intro sols
    rw [btkLoop, ihf (set2 bo y x v) sols]
    simp only [List.map_cons, List.flatten_cons]
    by_cases hstop : bud maxS sols.length ≤ (enumF f (set2 bo y x v)).length
    · rw [if_pos (by rw [decide_eq_true hstop])]
      rw [List.take_append_eq_append_take,
        Nat.sub_eq_zero_of_le hstop, List.take_zero, List.append_nil]
      rw [decide_eq_true hstop, decide_eq_true (by
        rw [List.length_append]
        omega)]
    · rw [if_neg (by rw [decide_eq_false hstop]; simp)]
      have hall : (enumF f (set2 bo y x v)).take (bud maxS sols.length) =
          enumF f (set2 bo y x v) := List.take_of_length_le (by omega)
      rw [hall, ih (sols ++ enumF f (set2 bo y x v))]
      have hlen : (sols ++ enumF f (set2 bo y x v)).length =
          sols.length + (enumF f (set2 bo y x v)).length := List.length_append _ _
      have hbud : bud maxS (sols.length + (enumF f (set2 bo y x v)).length) =
          bud maxS sols.length - (enumF f (set2 bo y x v)).length := by
        have hs2 := hstop
        unfold bud at hs2 ⊢
        by_cases h1 : maxS ≤ (sols.length : Int)
        · rw [if_pos h1] at hs2
          have he0 : (enumF f (set2 bo y x v)).length = 0 := by omega
          rw [he0, Nat.add_zero, if_pos h1]
        · rw [if_neg h1] at hs2
          rw [if_neg h1]
          have h2 : ¬maxS ≤
              ((sols.length + (enumF f (set2 bo y x v)).length : Nat) : Int) := by
            push_cast
            omega
          rw [if_neg h2]
          push_cast
          omega
      simp only [hlen, hbud, List.take_append_eq_append_take, hall,
        List.length_append, List.append_assoc]
      have hflag : (bud maxS sols.length -
            (enumF f (set2 bo y x v)).length ≤
          (List.map (fun v => enumF f (set2 bo y x v)) rest).flatten.length) =
          (bud maxS sols.length ≤ (enumF f (set2 bo y x v)).length +
            (List.map (fun v => enumF f (set2 bo y x v)) rest).flatten.length) := by
        apply propext
        constructor <;> intro <;> omega
      simp only [hflag]

theorem btkF_take : ∀ (f : Nat) (bo : Board) (maxS : Int) (sols : List Board),
    btkF f bo maxS sols =
      (decide (bud maxS sols.length ≤ (enumF f bo).length),
        sols ++ (enumF f bo).take (bud maxS sols.length)) := by
  intro f
  induction f with
  | zero =>
    intro bo maxS sols
    rw [btkF, enumF]
    simp only [List.length_nil, List.take_nil, List.append_nil]
    have := bud_pos maxS sols.length
    rw [decide_eq_false (by omega)]
  | succ f ih =>
    intro bo maxS sols
    rw [btkF, enumF]
    by_cases hok : (Annotate bo).2 = true
    · rw [if_pos hok, if_pos hok]
      cases hfe : firstEmpty bo with
      | none =>
        have hb := bud_pos maxS sols.length
        obtain ⟨k, hk⟩ : ∃ k, bud maxS sols.length = k + 1 :=
          ⟨bud maxS sols.length - 1, by omega⟩
        rw [hk]
        simp only [List.length_cons, List.length_nil, List.take_succ_cons,
          List.take_nil]
        have hflag : (maxS ≤ ((sols.length + 1 : Nat) : Int)) =
            (k + 1 ≤ 0 + 1) := by
          apply propext
          unfold bud at hk
          constructor
          · intro h1
            split at hk <;> omega
          · intro h1
            split at hk <;> omega
        simp only [hflag]
      | some p =>
        obtain ⟨y, x⟩ := p
        exact btkLoop_take f maxS (fun b s => ih b maxS s) bo y x _ sols
    · rw [if_neg hok, if_neg hok]
      simp only [List.length_nil, List.take_nil, List.append_nil]
      have := bud_pos maxS sols.length
      rw [decide_eq_false (by omega)]

theorem Backtrack_take (ab : AnnotatedBoard) (maxS : Int) :
    Backtrack ab maxS =
      (decide (bud maxS 0 ≤ (enumSols ab.board).length),
        (enumSols ab.board).take (bud maxS 0)) := by
  unfold Backtrack enumSols
  rw [btkF_take]
  simp

theorem firstEmptyRow_none_spec : ∀ (row : List Nat) (x0 : Nat),
    firstEmptyRow x0 row = none → ∀ i, i < row.length → row.getD i 0 ≠ 0 := by
  intro row
  induction row with
  | nil => intro x0 h i hi; simp at hi
  | cons v rest ih =>
    intro x0 h i hi
    rw [firstEmptyRow] at h
    by_cases hv : v = 0
    · rw [if_pos hv] at h; simp at h
    · rw [if_neg hv] at h
      cases i with
      | zero => simpa using hv
      | succ j =>
        simp only [List.length_cons] at hi
        simpa using ih (x0 + 1) h j (by omega)

theorem firstEmpty_none_spec : ∀ (rows : Board) (y0 : Nat),
    firstEmptyAux y0 rows = none →
    ∀ y, y < rows.length → ∀ x, x < (rows.getD y []).length →
      (rows.getD y []).getD x 0 ≠ 0 := by
  intro rows
  induction rows with
  | nil => intro y0 h y hy; simp at hy
  | cons row rest ih =>
    intro y0 h y hy x hx
    rw [firstEmptyAux] at h
    cases hrow : firstEmptyRow 0 row with
    | some x1 => rw [hrow] at h; simp at h
    | none =>
      rw [hrow] at h
      cases y with
      | zero =>
        simp only [List.getD_cons_zero] at hx ⊢
        exact firstEmptyRow_none_spec row 0 hrow x hx
      | succ y2 =>
        simp only [List.length_cons] at hy
        simp only [List.getD_cons_succ] at hx ⊢
        exact ih (y0 + 1) h y2 (by omega) x hx

/-- The unconditional part of the soundness of the search enumeration:
every recorded board passed its own annotation (no duplicates), is full,
and extends the start board. -/
theorem enumF_sound : ∀ (f : Nat) (bo : Board), ∀ b ∈ enumF f bo,
    okBoard b = true ∧ firstEmpty b = none ∧
    (∀ y x, 0 < getD2 bo y x → getD2 b y x = getD2 bo y x) := by
  intro f
  induction f with
  | zero => intro bo b hb; simp [enumF] at hb
  | succ f ih =>
    intro bo b hb
    rw [enumF] at hb
    by_cases hok : (Annotate bo).2 = true
    · rw [if_pos hok] at hb
      cases hfe : firstEmpty bo with
      | none =>
        rw [hfe] at hb
        simp only [List.mem_singleton] at hb
        subst hb
        exact ⟨hok, hfe, fun y x _ => rfl⟩
      | some p =>
        obtain ⟨y, x⟩ := p
        rw [hfe] at hb
        rw [List.mem_flatten] at hb
        obtain ⟨l, hl, hbl⟩ := hb
        rw [List.mem_map] at hl
        obtain ⟨v, hv, rfl⟩ := hl
        obtain ⟨ho, hf, hext⟩ := ih (set2 bo y x v) b hbl
        refine ⟨ho, hf, ?_⟩
        intro y2 x2 hpos
        obtain ⟨hyb, hxb, h0⟩ := firstEmpty_spec hfe
        have hne : (y2, x2) ≠ (y, x) := by
          intro hc
          simp only [Prod.mk.injEq] at hc
          rw [hc.1, hc.2] at hpos
          omega
        have hpos2 : 0 < getD2 (set2 bo y x v) y2 x2 := by
          rw [getD2_set2_ne hne v]
          exact hpos
        rw [hext y2 x2 hpos2, getD2_set2_ne hne v]
    · rw [if_neg hok] at hb
      simp at hb

/-- The boards recorded by the search are pairwise distinct: two branches
diverge at the first empty cell of their common ancestor, where they carry
different positive values. -/
theorem enumF_pairwise : ∀ (f : Nat) (bo : Board),
    (enumF f bo).Pairwise (· ≠ ·) := by
  intro f
  induction f with
  | zero => intro bo; simp [enumF]
  | succ f ih =>
    intro bo
    rw [enumF]
    by_cases hok : (Annotate bo).2 = true
    · rw [if_pos hok]
      cases hfe : firstEmpty bo with
      | none => simp
      | some p =>
        obtain ⟨y, x⟩ := p
        rw [List.pairwise_flatten]
        constructor
        · intro l hl
          rw [List.mem_map] at hl
          obtain ⟨v, hv, rfl⟩ := hl
          exact ih (set2 bo y x v)
        · rw [List.pairwise_map]
          obtain ⟨hyb, hxb, h0⟩ := firstEmpty_spec hfe
          have hnd : (Candidates.Decimals ((Annotate bo).1 y x)).Pairwise (· ≠ ·) :=
            Candidates.decimals_nodup _
          refine hnd.imp_of_mem ?_
          intro v1 v2 hv1 hv2 hne b1 hb1 b2 hb2
          obtain ⟨_, _, hext1⟩ := enumF_sound f (set2 bo y x v1) b1 hb1
          obtain ⟨_, _, hext2⟩ := enumF_sound f (set2 bo y x v2) b2 hb2
          have hval1 : getD2 b1 y x = v1 := by
            rw [hext1 y x (by
              rw [getD2_set2_self hyb hxb]
              exact Candidates.decimals_pos _ _ hv1)]
            exact getD2_set2_self hyb hxb v1
          have hval2 : getD2 b2 y x = v2 := by
            rw [hext2 y x (by
              rw [getD2_set2_self hyb hxb]
              exact Candidates.decimals_pos _ _ hv2)]
            exact getD2_set2_self hyb hxb v2
          intro hc
          apply hne
          rw [← hval1, ← hval2, hc]
    · rw [if_neg hok]
      simp

/-- `c` is a solution of (completion of) the board `bo`: a full square board
with values in `[1, n]` that agrees with `bo` on every filled cell and
passes annotation (no row/column/block duplicate). -/
def Completion (bo c : Board) (n : Nat) : Prop :=
  Square c n ∧
  (∀ y, y < n → ∀ x, x < n → 1 ≤ getD2 c y x ∧ getD2 c y x ≤ n) ∧
  (∀ y, y < n → ∀ x, x < n → 0 < getD2 bo y x → getD2 c y x = getD2 bo y x) ∧
  Full c ∧ okBoard c = true

instance (bo c : Board) (n : Nat) : Decidable (Completion bo c n) := by
  unfold Completion
  infer_instance

theorem enumF_wf {n : Nat} : ∀ (f : Nat) (bo : Board), Square bo n →
    (∀ y, y < n → ∀ x, x < n → getD2 bo y x ≤ n) →
    ∀ b ∈ enumF f bo,
      Square b n ∧ (∀ y, y < n → ∀ x, x < n → getD2 b y x ≤ n) := by
  intro f
  induction f with
  | zero => intro bo _ _ b hb; simp [enumF] at hb
  | succ f ih =>
    intro bo hsq hvals b hb
    rw [enumF] at hb
    by_cases hok : (Annotate bo).2 = true
    · rw [if_pos hok] at hb
      cases hfe : firstEmpty bo with
      | none =>
        rw [hfe] at hb
        simp only [List.mem_singleton] at hb
        subst hb
        exact ⟨hsq, hvals⟩
      | some p =>
        obtain ⟨y, x⟩ := p
        rw [hfe] at hb
        rw [List.mem_flatten] at hb
        obtain ⟨l, hl, hbl⟩ := hb
        rw [List.mem_map] at hl
        obtain ⟨v, hv, rfl⟩ := hl
        obtain ⟨hyb, hxb, h0⟩ := firstEmpty_spec hfe
        have hyn : y < n := by rw [← hsq.1]; exact hyb
        have hxn : x < n := by
          have := row_length_of_square hsq hyn
          omega
        have hvn : v ≤ n := by
          rw [Candidates.mem_decimals] at hv
          have hcont : Candidates.Contains ((Annotate bo).1 y x) v = true :=
            (Candidates.contains_iff_testBit _ _).mpr hv.2
          have := ((annotate_char_aux hsq hok y hyn x hxn).1 h0 v).mp hcont
          omega
        refine ih (set2 bo y x v) (square_set2 hsq hyn v) ?_ b hbl
        intro y2 hy2 x2 hx2
        by_cases hc : (y2, x2) = (y, x)
        · simp only [Prod.mk.injEq] at hc
          rw [hc.1, hc.2, getD2_set2_self hyb hxb]
          exact hvn
        · rw [getD2_set2_ne hc v]
          exact hvals y2 hy2 x2 hx2
    · rw [if_neg hok] at hb
      simp at hb

theorem enumSols_completion {n : Nat} {bo : Board} (hsq : Square bo n)
    (hvals : ∀ y, y < n → ∀ x, x < n → getD2 bo y x ≤ n) :
    ∀ b ∈ enumSols bo, Completion bo b n := by
  intro b hb
  obtain ⟨hok, hfull, hext⟩ := enumF_sound _ _ b hb
  obtain ⟨hsqb, hrange⟩ := enumF_wf _ _ hsq hvals b hb
  refine ⟨hsqb, ?_, ?_, hfull, hok⟩
  · intro y hy x hx
    refine ⟨?_, hrange y hy x hx⟩
    have hne := firstEmpty_none_spec b 0 hfull y (by rw [hsqb.1]; omega) x
      (by rw [row_length_of_square hsqb hy]; omega)
    have : getD2 b y x ≠ 0 := hne
    omega
  · intro y _ x _ hpos
    exact hext y x hpos

/-- C1 counterexample: on the already-solved 4×4 board with
`maxSolutions = 2`, `Backtrack` records the unique solution but returns
`solved = false`, because `solved` reports only whether the recorded count
reached `maxSolutions` — not whether at least one solution was found. -/
theorem backtrack_solved_iff_found_cex :
    Backtrack (mkAB [[1, 2, 3, 4], [3, 4, 1, 2], [4, 1, 2, 3], [2, 3, 4, 1]]) 2 =
      (false, [[[1, 2, 3, 4], [3, 4, 1, 2], [4, 1, 2, 3], [2, 3, 4, 1]]]) := by
  decide

/-- C1 (amended): `Backtrack` returns `solved = true` iff at least one
solution was recorded and the recorded count reached `maxSolutions`; a
board with at least one but fewer than `maxSolutions` completions yields
`solved = false` together with the non-empty solution list, and a board
with no completion yields `solved = false` with the empty list. -/
theorem backtrack_solved_iff_reached_max (ab : AnnotatedBoard) (maxS : Int)
    (n : Nat) (hsq : Square ab.board n)
    (hvals : ∀ y, y < n → ∀ x, x < n → getD2 ab.board y x ≤ n) :
    ((Backtrack ab maxS).1 = true ↔
      (1 ≤ (Backtrack ab maxS).2.length ∧
        maxS ≤ ((Backtrack ab maxS).2.length : Int))) ∧
    ((¬∃ c, Completion ab.board c n) → Backtrack ab maxS = (false, [])) := by
  rw [Backtrack_take]
  constructor
  · simp only [decide_eq_true_eq, List.length_take]
    unfold bud
    split <;> omega
  · intro hnc
    have hE : enumSols ab.board = [] := by
      cases hE : enumSols ab.board with
      | nil => rfl
      | cons b rest =>
        exact absurd ⟨b, enumSols_completion hsq hvals b
          (by rw [hE]; exact List.mem_cons_self _ _)⟩ hnc
    rw [hE]
    have hb := bud_pos maxS 0
    simp only [List.length_nil, List.take_nil]
    rw [decide_eq_false (by omega)]

theorem backtrack_solved_iff_reached_max_witness :
    Square ([[1, 1], [2, 2]] : Board) 2 ∧
    (∀ y, y < 2 → ∀ x, x < 2 → getD2 [[1, 1], [2, 2]] y x ≤ 2) ∧
    Backtrack (mkAB [[1, 1], [2, 2]]) 4 = (false, []) := by
  refine ⟨by decide, by decide, ?_⟩
  apply (backtrack_solved_iff_reached_max (mkAB [[1, 1], [2, 2]]) 4 2
    (by decide) (by decide)).2
  rintro ⟨c, hsqc, hrange, hext, hfull, hok⟩
  have h00 : getD2 c 0 0 = 1 := by
    have h := hext 0 (by omega) 0 (by omega) (by decide)
    simpa using h
  have h01 : getD2 c 0 1 = 1 := by
    have h := hext 0 (by omega) 1 (by omega) (by decide)
    simpa using h
  have hdup : HasDuplicate c 2 (sqrt 2) :=
    ⟨0, 0, 0, 1, by omega, by omega, by omega, by omega, by decide, by omega,
      by omega, Or.inl rfl⟩
  have herr := (annotate_error_iff_dup_aux hsqc).mpr hdup
  unfold okBoard at hok
  rw [herr] at hok
  exact absurd hok (by simp)

/-- C6: for every `maxSolutions = k ≥ 1`, `Backtrack` returns at most `k`
solutions, pairwise distinct and complete (no empty field), and the
returned list is exactly the first `k` entries of the full depth-first
enumeration — once the k-th solution is recorded the stop signal
propagates and no further sibling branch contributes. -/
theorem backtrack_at_most_k_distinct (ab : AnnotatedBoard) (k : Int)
    (hk : 1 ≤ k) :
    ((Backtrack ab k).2.length : Int) ≤ k ∧
    (Backtrack ab k).2.Pairwise (· ≠ ·) ∧
    (∀ b ∈ (Backtrack ab k).2, Full b) ∧
    (Backtrack ab k).2 = (enumSols ab.board).take k.toNat := by
  rw [Backtrack_take]
  have hbud : bud k 0 = k.toNat := by
    unfold bud
    split <;> omega
  simp only [hbud]
  refine ⟨?_, ?_, ?_, trivial⟩
  · rw [List.length_take]
    omega
  · exact List.Pairwise.sublist (List.take_sublist _ _) (enumF_pairwise _ _)
  · intro b hb
    have hbmem : b ∈ enumSols ab.board := List.mem_of_mem_take hb
    exact (enumF_sound _ _ b hbmem).2.1

theorem backtrack_at_most_k_distinct_witness :
    (1 : Int) ≤ 2 ∧
    (((Backtrack (mkAB [[1, 2, 3, 4], [3, 4, 1, 2], [4, 1, 2, 3], [2, 3, 4, 1]])
        2).2.length : Int) ≤ 2 ∧
      (Backtrack (mkAB [[1, 2, 3, 4], [3, 4, 1, 2], [4, 1, 2, 3], [2, 3, 4, 1]])
        2).2.Pairwise (· ≠ ·) ∧
      (∀ b ∈ (Backtrack (mkAB [[1, 2, 3, 4], [3, 4, 1, 2], [4, 1, 2, 3],
        [2, 3, 4, 1]]) 2).2, Full b) ∧
      (Backtrack (mkAB [[1, 2, 3, 4], [3, 4, 1, 2], [4, 1, 2, 3], [2, 3, 4, 1]])
        2).2 =
        (enumSols [[1, 2, 3, 4], [3, 4, 1, 2], [4, 1, 2, 3],
          [2, 3, 4, 1]]).take (2 : Int).toNat) :=
  ⟨by decide, backtrack_at_most_k_distinct _ 2 (by decide)⟩

/-- Completeness of the search enumeration: a board that admits a solution
contributes at least one entry to the enumeration (with the fuel
`Backtrack` uses). -/
theorem enumF_complete {n : Nat} : ∀ (e : Nat) (bo : Board), emptyCount bo = e →
    Square bo n → (∀ y, y < n → ∀ x, x < n → getD2 bo y x ≤ n) →
    (∃ c, Completion bo c n) → enumF (e + 1) bo ≠ [] := by
  intro e
  induction e using Nat.strong_induction_on with
  | _ e IH =>
    intro bo he hsq hvals hsol
    obtain ⟨c, hsqc, hrange, hext, hfullc, hokc⟩ := hsol
    have hokbo : (Annotate bo).2 = true := by
      cases hA : (Annotate bo).2 with
      | true => rfl
      | false =>
        exfalso
        obtain ⟨y1, x1, y2, x2, hy1, hx1, hy2, hx2, hne, hpos, heq, hline⟩ :=
          (annotate_error_iff_dup_aux hsq).mp hA
        have hc1 : getD2 c y1 x1 = getD2 bo y1 x1 := hext y1 hy1 x1 hx1 hpos
        have hc2 : getD2 c y2 x2 = getD2 bo y2 x2 := hext y2 hy2 x2 hx2 (by omega)
        have hdupc : HasDuplicate c n (sqrt n) :=
          ⟨y1, x1, y2, x2, hy1, hx1, hy2, hx2, hne, by omega, by omega, hline⟩
        have herr := (annotate_error_iff_dup_aux hsqc).mpr hdupc
        unfold okBoard at hokc
        rw [herr] at hokc
        exact absurd hokc (by simp)
    rw [enumF, if_pos hokbo]
    cases hfe : firstEmpty bo with
    | none => simp
    | some p =>
      obtain ⟨y, x⟩ := p
      obtain ⟨hyb, hxb, h0⟩ := firstEmpty_spec hfe
      have hyn : y < n := by rw [← hsq.1]; exact hyb
      have hxn : x < n := by
        have := row_length_of_square hsq hyn
        omega
      have hwrange := hrange y hyn x hxn
      have hdupof : ∀ y2 x2, y2 < n → x2 < n → (y2, x2) ≠ (y, x) →
          getD2 bo y2 x2 = getD2 c y x →
          (y2 = y ∨ x2 = x ∨ (y2 / sqrt n = y / sqrt n ∧ x2 / sqrt n = x / sqrt n)) →
          False := by
        intro y2 x2 hy2 hx2 hne2 hcon hline2
        have hposb : 0 < getD2 bo y2 x2 := by omega
        have hcx2 : getD2 c y2 x2 = getD2 bo y2 x2 := hext y2 hy2 x2 hx2 hposb
        have hdupc : HasDuplicate c n (sqrt n) :=
          ⟨y2, x2, y, x, hy2, hx2, hyn, hxn, hne2, by omega, by omega, hline2⟩
        have herr := (annotate_error_iff_dup_aux hsqc).mpr hdupc
        unfold okBoard at hokc
        rw [herr] at hokc
        exact absurd hokc (by simp)
      have hcont : Candidates.Contains ((Annotate bo).1 y x)
          (getD2 c y x) = true := by
        refine ((annotate_char_aux hsq hokbo y hyn x hxn).1 h0
          (getD2 c y x)).mpr ⟨by omega, by omega, ?_, ?_, ?_⟩
        · intro x2 hx2 hcon
          refine hdupof y x2 hyn hx2 ?_ hcon (Or.inl rfl)
          intro hq
          simp only [Prod.mk.injEq] at hq
          rw [hq.2] at hcon
          omega
        · intro y2 hy2 hcon
          refine hdupof y2 x hy2 hxn ?_ hcon (Or.inr (Or.inl rfl))
          intro hq
          simp only [Prod.mk.injEq] at hq
          rw [hq.1] at hcon
          omega
        · intro y2 x2 hy2 hx2 hq1 hq2 hcon
          refine hdupof y2 x2 hy2 hx2 ?_ hcon (Or.inr (Or.inr ⟨hq1, hq2⟩))
          intro hq
          simp only [Prod.mk.injEq] at hq
          rw [hq.1, hq.2] at hcon
          omega
      have hmem : getD2 c y x ∈ Candidates.Decimals ((Annotate bo).1 y x) :=
        (Candidates.mem_decimals _ _).mpr
          ⟨by omega, (Candidates.contains_iff_testBit _ _).mp hcont⟩
      have he1 : 0 < e := by
        have := emptyCount_pos hyb hxb h0
        omega
      have hchild : emptyCount (set2 bo y x (getD2 c y x)) = e - 1 := by
        have := emptyCount_set2 bo y x (getD2 c y x) hyb hxb h0 (by omega)
        omega
      have hsq2 : Square (set2 bo y x (getD2 c y x)) n := square_set2 hsq hyn _
      have hvals2 : ∀ y2, y2 < n → ∀ x2, x2 < n →
          getD2 (set2 bo y x (getD2 c y x)) y2 x2 ≤ n := by
        intro y2 hy2 x2 hx2
        by_cases hcq : (y2, x2) = (y, x)
        · simp only [Prod.mk.injEq] at hcq
          rw [hcq.1, hcq.2, getD2_set2_self hyb hxb]
          omega
        · rw [getD2_set2_ne hcq _]
          exact hvals y2 hy2 x2 hx2
      have hcomp2 : ∃ c2, Completion (set2 bo y x (getD2 c y x)) c2 n := by
        refine ⟨c, hsqc, hrange, ?_, hfullc, hokc⟩
        intro y2 hy2 x2 hx2 hpos2
        by_cases hcq : (y2, x2) = (y, x)
        · simp only [Prod.mk.injEq] at hcq
          rw [hcq.1, hcq.2, getD2_set2_self hyb hxb]
        · rw [getD2_set2_ne hcq _] at hpos2
          rw [getD2_set2_ne hcq _]
          exact hext y2 hy2 x2 hx2 hpos2
      have hne2 := IH (e - 1) (by omega) (set2 bo y x (getD2 c y x)) hchild
        hsq2 hvals2 hcomp2
      have hee : e - 1 + 1 = e := by omega
      rw [hee] at hne2
      change (List.map (fun v => enumF e (set2 bo y x v))
        (Candidates.Decimals ((Annotate bo).1 y x))).flatten ≠ []
      cases hcne : enumF e (set2 bo y x (getD2 c y x)) with
      | nil => exact absurd hcne hne2
      | cons b rest =>
        intro hnil
        have hbmem : b ∈ (List.map (fun v => enumF e (set2 bo y x v))
            (Candidates.Decimals ((Annotate bo).1 y x))).flatten := by
          rw [List.mem_flatten]
          refine ⟨enumF e (set2 bo y x (getD2 c y x)),
            List.mem_map_of_mem _ hmem, ?_⟩
          rw [hcne]
          exact List.mem_cons_self _ _
        rw [hnil] at hbmem
        simp at hbmem

/-- C9: for a negative `maxSolutions` (including the documented "unbounded"
sentinel −1), `Backtrack` stops as soon as the first solution is recorded:
on any annotated board with at least one completion it returns
`solved = true` with a solution list of length exactly one. -/
theorem backtrack_negative_single (ab : AnnotatedBoard) (maxS : Int)
    (hneg : maxS ≤ 0) (n : Nat) (hsq : Square ab.board n)
    (hvals : ∀ y, y < n → ∀ x, x < n → getD2 ab.board y x ≤ n)
    (hsol : ∃ c, Completion ab.board c n) :
    (Backtrack ab maxS).1 = true ∧ (Backtrack ab maxS).2.length = 1 := by
  rw [Backtrack_take]
  have hE : enumSols ab.board ≠ [] :=
    enumF_complete (emptyCount ab.board) ab.board rfl hsq hvals hsol
  have hEl : 1 ≤ (enumSols ab.board).length := by
    cases hE2 : enumSols ab.board with
    | nil => exact absurd hE2 hE
    | cons b rest => simp
  have hb : bud maxS 0 = 1 := by
    unfold bud
    split <;> omega
  rw [hb]
  refine ⟨by rw [decide_eq_true hEl], ?_⟩
  rw [List.length_take]
  omega

theorem backtrack_negative_single_witness :
    ((-1 : Int) ≤ 0) ∧
    Square ([[1, 2, 3, 0], [0, 0, 0, 0], [0, 0, 0, 0], [0, 0, 0, 0]] : Board) 4 ∧
    (∀ y, y < 4 → ∀ x, x < 4 →
      getD2 [[1, 2, 3, 0], [0, 0, 0, 0], [0, 0, 0, 0], [0, 0, 0, 0]] y x ≤ 4) ∧
    Completion [[1, 2, 3, 0], [0, 0, 0, 0], [0, 0, 0, 0], [0, 0, 0, 0]]
      [[1, 2, 3, 4], [3, 4, 1, 2], [2, 1, 4, 3], [4, 3, 2, 1]] 4 ∧
    ((Backtrack (mkAB [[1, 2, 3, 0], [0, 0, 0, 0], [0, 0, 0, 0], [0, 0, 0, 0]])
        (-1)).1 = true ∧
      (Backtrack (mkAB [[1, 2, 3, 0], [0, 0, 0, 0], [0, 0, 0, 0], [0, 0, 0, 0]])
        (-1)).2.length = 1) :=
  ⟨by decide, by decide, by decide, by decide,
    backtrack_negative_single
      (mkAB [[1, 2, 3, 0], [0, 0, 0, 0], [0, 0, 0, 0], [0, 0, 0, 0]]) (-1)
      (by decide) 4 (by decide) (by decide)
      ⟨[[1, 2, 3, 4], [3, 4, 1, 2], [2, 1, 4, 3], [4, 3, 2, 1]], by decide⟩⟩

theorem foldl_inv_mem {α St : Type} (P : St → Prop) (f : St → α → St) :
    ∀ (l : List α), (∀ s a, a ∈ l → P s → P (f s a)) →
      ∀ s, P s → P (l.foldl f s) := by
  intro l
  induction l with
  | nil => intro _ s hs; exact hs
  | cons a rest ih =>
    intro hf s hs
    exact ih (fun s2 b hb hs2 => hf s2 b (List.mem_cons_of_mem a hb) hs2)
      (f s a) (hf s a (List.mem_cons_self a rest) hs)

/-- The candidate grid is safe for the `SingleCandidate` scan: on every
empty cell whose mask is single, `Decimals()[0]` is a positive value.
Every grid `Annotate` returns (also on its error path) satisfies this. -/
def GoodGrid (bo : Board) (g : Nat → Nat → Nat) : Prop :=
  ∀ y x, getD2 bo y x = 0 → Candidates.Single (g y x) = true →
    1 ≤ (Candidates.Decimals (g y x)).headI

theorem cands_zero_of_sub {rt : Nat} {L : List (Nat × Nat × Nat)} {st : AnnSt}
    (hok : annotFold rt L annotInit = Except.ok st)
    {bo : Board} {y x : Nat} (hsub : ∀ cc, cc ∈ L → cc ∈ cellsOf bo)
    (h0 : getD2 bo y x = 0) : st.cands y x = 0 := by
  apply Nat.eq_of_testBit_eq
  intro i
  rw [Nat.zero_testBit]
  cases hbit : (st.cands y x).testBit i with
  | false => rfl
  | true =>
    obtain ⟨_, _, _, chk⟩ := annotFold_ok_char rt L annotInit st hok
    rw [chk y x i] at hbit
    rcases hbit with hz | ⟨hi, hm⟩
    · rw [show annotInit.cands y x = 0 from rfl, Nat.zero_testBit] at hz
      exact hz.symm
    · obtain ⟨_, _, hval⟩ := (cellsOf_mem bo y x i).mp (hsub _ hm)
      omega

theorem annotate_good (bo : Board) : GoodGrid bo ((Annotate bo).1) := by
  intro y x h0 hsingle
  unfold Annotate at hsingle ⊢
  cases hfold : annotFold (sqrt (boardSize bo)) (cellsOf bo) annotInit with
  | ok st =>
    rw [hfold] at hsingle
    simp only [] at hsingle ⊢
    have hz : st.cands y x = 0 := cands_zero_of_sub hfold (fun _ h => h) h0
    unfold secondPass at hsingle ⊢
    rw [hz, if_neg (by omega)] at hsingle ⊢
    obtain ⟨k, hk⟩ := (Candidates.single_iff _).mp hsingle
    rw [hk]
    have hbit : (andNot (andNot (andNot (allCandidates (boardSize bo))
        (st.rows y)) (st.cols x)) (st.blocks (y / sqrt (boardSize bo))
          (x / sqrt (boardSize bo)))).testBit k = true := by
      rw [hk]
      exact Nat.testBit_two_pow_self
    rw [testBit_andNot, testBit_andNot, testBit_andNot,
      Candidates.testBit_allCandidates] at hbit
    have hk1 : 1 ≤ k := by
      rcases Bool.and_eq_true_iff.mp hbit with ⟨hbit2, _⟩
      rcases Bool.and_eq_true_iff.mp hbit2 with ⟨hbit3, _⟩
      rcases Bool.and_eq_true_iff.mp hbit3 with ⟨hbit4, _⟩
      have := of_decide_eq_true hbit4
      omega
    rw [Candidates.decimals_two_pow hk1]
    simpa using hk1
  | error st =>
    rw [hfold] at hsingle
    simp only [] at hsingle ⊢
    obtain ⟨P, yc, xc, vc, Q, hsplit, hvc, hokP, _⟩ :=
      annotFold_err _ _ _ _ hfold
    have hz : st.cands y x = 0 := by
      refine cands_zero_of_sub hokP ?_ h0
      intro cc hcc
      rw [hsplit]
      exact List.mem_append_left _ hcc
    rw [hz] at hsingle
    exact absurd hsingle (by decide)

/-- Invariant of the inner scan of `SingleCandidate`, holding for every
grid: filled cells keep their input value (the scan only writes cells that
are `0` at write time), and while the flag is still `false` the board is
untouched. -/
def ScanInv (bo : Board) (acc : Board × Bool) : Prop :=
  (∀ y x, 0 < getD2 bo y x → getD2 acc.1 y x = getD2 bo y x) ∧
  (acc.2 = false → acc.1 = bo)

theorem scanStep_inv {bo : Board} {g : Nat → Nat → Nat} {y x : Nat}
    {acc : Board × Bool} (h : ScanInv bo acc) :
    ScanInv bo (scanStep g y x acc) := by
  unfold scanStep
  by_cases hfire : (Candidates.Single (g y x) && (getD2 acc.1 y x == 0)) = true
  · rw [if_pos hfire]
    have h0 : getD2 acc.1 y x = 0 :=
      beq_iff_eq.mp (Bool.and_eq_true_iff.mp hfire).2
    refine ⟨?_, ?_⟩
    · intro y2 x2 hpos
      have hval := h.1 y2 x2 hpos
      have hne : (y2, x2) ≠ (y, x) := by
        intro hc
        injection hc with hc1 hc2
        subst hc1; subst hc2
        omega
      rw [getD2_set2_ne hne]
      exact hval
    · intro hc
      simp at hc
  · rw [if_neg hfire]
    exact h

theorem scanPass_inv (n : Nat) (g : Nat → Nat → Nat) (bo : Board) :
    ScanInv bo (scanPass n g bo) := by
  unfold scanPass
  refine foldl_inv_mem (ScanInv bo) _ (List.range n) (fun s a _ hs => ?_)
    (bo, false) ⟨fun _ _ _ => rfl, fun _ => rfl⟩
  exact foldl_inv_mem (ScanInv bo) _ (List.range n)
    (fun s2 b _ hs2 => scanStep_inv hs2) s hs

/-- Counting invariant of the scan, for square boards and a good grid:
the output board is still square, its empty cells were already empty on
entry, and a raised flag certifies that the number of empty cells strictly
dropped. -/
def ScanCInv (bo : Board) (n : Nat) (acc : Board × Bool) : Prop :=
  Square acc.1 n ∧
  (∀ y x, getD2 acc.1 y x = 0 → getD2 bo y x = 0) ∧
  (acc.2 = false → acc.1 = bo) ∧
  (acc.2 = true → emptyCount acc.1 < emptyCount bo)

theorem scanStep_cinv {bo : Board} {n : Nat} {g : Nat → Nat → Nat}
    {y x : Nat} {acc : Board × Bool} (hg : GoodGrid bo g)
    (hy : y < n) (hx : x < n) (h : ScanCInv bo n acc) :
    ScanCInv bo n (scanStep g y x acc) := by
  obtain ⟨hsa, hzs, hfb, hlt⟩ := h
  unfold scanStep
  by_cases hfire : (Candidates.Single (g y x) && (getD2 acc.1 y x == 0)) = true
  · rw [if_pos hfire]
    obtain ⟨hsing, h0b⟩ := Bool.and_eq_true_iff.mp hfire
    have h0 : getD2 acc.1 y x = 0 := beq_iff_eq.mp h0b
    have h0bo : getD2 bo y x = 0 := hzs y x h0
    have hv : 1 ≤ (Candidates.Decimals (g y x)).headI := hg y x h0bo hsing
    have hylen : y < acc.1.length := by rw [hsa.1]; exact hy
    have hxlen : x < (acc.1.getD y []).length := by
      rw [getDl_eq_getElem_of_lt hylen, hsa.2 _ (List.getElem_mem hylen)]
      exact hx
    have hdec := emptyCount_set2 acc.1 y x
      ((Candidates.Decimals (g y x)).headI) hylen hxlen h0 (by omega)
    refine ⟨square_set2 hsa hy _, ?_, ?_, ?_⟩
    · intro y2 x2 hz2
      by_cases hne : (y2, x2) = (y, x)
      · injection hne with h1 h2
        subst h1; subst h2
        rw [getD2_set2_self hylen hxlen] at hz2
        omega
      · rw [getD2_set2_ne hne] at hz2
        exact hzs y2 x2 hz2
    · intro hc
      simp at hc
    · intro _
      show emptyCount (set2 acc.1 y x ((Candidates.Decimals (g y x)).headI)) <
        emptyCount bo
      cases hflag : acc.2 with
      | true => have := hlt hflag; omega
      | false =>
        have hb : acc.1 = bo := hfb hflag
        rw [hb] at hdec ⊢
        omega
  · rw [if_neg hfire]
    exact ⟨hsa, hzs, hfb, hlt⟩

theorem scanPass_cinv {bo : Board} {n : Nat} {g : Nat → Nat → Nat}
    (hsq : Square bo n) (hg : GoodGrid bo g) :
    ScanCInv bo n (scanPass n g bo) := by
  unfold scanPass
  refine foldl_inv_mem (ScanCInv bo n) _ (List.range n) (fun s a ha hs => ?_)
    (bo, false)
    ⟨hsq, fun _ _ hz => hz, fun _ => rfl, fun hc => by simp at hc⟩
  exact foldl_inv_mem (ScanCInv bo n) _ (List.range n)
    (fun s2 b hb hs2 =>
      scanStep_cinv hg (List.mem_range.mp ha) (List.mem_range.mp hb) hs2)
    s hs

/-- Along the whole `SingleCandidate` loop, filled cells are never cleared
or changed — for any fuel, any grid. -/
theorem scLoop_ext : ∀ (fuel : Nat) (ab : AnnotatedBoard) (y x : Nat),
    0 < getD2 ab.board y x →
    getD2 (scLoop fuel ab).1.board y x = getD2 ab.board y x := by
  intro fuel
  induction fuel with
  | zero => intro ab y x _; rfl
  | succ f ih =>
    intro ab y x h
    simp only [scLoop]
    by_cases hp : (scanPass (boardSize ab.board) ab.cands ab.board).2 = true
    · rw [if_pos hp]
      have h1 : getD2 (scanPass (boardSize ab.board) ab.cands ab.board).1 y x =
          getD2 ab.board y x :=
        (scanPass_inv (boardSize ab.board) ab.cands ab.board).1 y x h
      have h2 := ih ⟨(scanPass (boardSize ab.board) ab.cands ab.board).1,
          (Annotate (scanPass (boardSize ab.board) ab.cands ab.board).1).1⟩
        y x (by
          show 0 < getD2 (scanPass (boardSize ab.board) ab.cands ab.board).1 y x
          rw [h1]
          exact h)
      exact h2.trans h1
    · rw [if_neg hp]
      show getD2 (scanPass (boardSize ab.board) ab.cands ab.board).1 y x =
        getD2 ab.board y x
      have hfalse : (scanPass (boardSize ab.board) ab.cands ab.board).2 = false := by
        cases h2 : (scanPass (boardSize ab.board) ab.cands ab.board).2 with
        | false => rfl
        | true => exact absurd h2 hp
      rw [(scanPass_inv (boardSize ab.board) ab.cands ab.board).2 hfalse]

theorem emptyCount_le_sq {bo : Board} {n : Nat} (hsq : Square bo n) :
    emptyCount bo ≤ n * n := by
  have key : ∀ l : Board, (∀ row ∈ l, rowEmpty row ≤ n) →
      (l.map rowEmpty).sum ≤ l.length * n := by
    intro l
    induction l with
    | nil => intro _; simp
    | cons r rest ih =>
      intro hrows
      simp only [List.map_cons, List.sum_cons, List.length_cons]
      have h1 := hrows r (List.mem_cons_self r rest)
      have h2 := ih (fun row hrow => hrows row (List.mem_cons_of_mem r hrow))
      have : (rest.length + 1) * n = rest.length * n + n := by ring
      omega
  have hb := key bo (fun row hrow => by
    have hlen := hsq.2 row hrow
    unfold rowEmpty
    calc row.countP (fun v => v == 0) ≤ row.length := List.countP_le_length _
    _ = n := hlen)
  unfold emptyCount
  rw [hsq.1] at hb
  exact hb

/-- The master bound on the `SingleCandidate` loop: on a square board with
a good candidate grid (which every re-annotation produces) and enough fuel,
the iteration count exceeds the number of cells the loop filled by at most
one (each iteration but the last fills at least one empty cell), the final
board has no more empty cells than the input, and it is still square. -/
theorem scLoop_master {n : Nat} : ∀ (fuel : Nat) (ab : AnnotatedBoard),
    Square ab.board n → GoodGrid ab.board ab.cands →
    emptyCount ab.board + 1 ≤ fuel →
    ((scLoop fuel ab).2 ≤
        (emptyCount ab.board - emptyCount (scLoop fuel ab).1.board) + 1 ∧
      emptyCount (scLoop fuel ab).1.board ≤ emptyCount ab.board ∧
      Square (scLoop fuel ab).1.board n) := by
  intro fuel
  induction fuel with
  | zero => intro ab _ _ hfuel; exact absurd hfuel (by omega)
  | succ f ih =>
    intro ab hsq hg hfuel
    have hbs : boardSize ab.board = n := boardSize_of_square hsq
    have hcinv := scanPass_cinv hsq hg
    by_cases hflag : (scanPass n ab.cands ab.board).2 = true
    · have heq : scLoop (f + 1) ab =
          ((scLoop f ⟨(scanPass n ab.cands ab.board).1,
              (Annotate (scanPass n ab.cands ab.board).1).1⟩).1,
            (scLoop f ⟨(scanPass n ab.cands ab.board).1,
              (Annotate (scanPass n ab.cands ab.board).1).1⟩).2 + 1) := by
        simp only [scLoop]
        rw [hbs, if_pos hflag]
      have hlt : emptyCount (scanPass n ab.cands ab.board).1 <
          emptyCount ab.board := hcinv.2.2.2 hflag
      have hsub := ih ⟨(scanPass n ab.cands ab.board).1,
          (Annotate (scanPass n ab.cands ab.board).1).1⟩
        hcinv.1 (annotate_good _) (by
          show emptyCount (scanPass n ab.cands ab.board).1 + 1 ≤ f
          omega)
      have ha : (scLoop f ⟨(scanPass n ab.cands ab.board).1,
          (Annotate (scanPass n ab.cands ab.board).1).1⟩).2 ≤
          (emptyCount (scanPass n ab.cands ab.board).1 -
            emptyCount (scLoop f ⟨(scanPass n ab.cands ab.board).1,
              (Annotate (scanPass n ab.cands ab.board).1).1⟩).1.board) + 1 :=
        hsub.1
      have hb : emptyCount (scLoop f ⟨(scanPass n ab.cands ab.board).1,
          (Annotate (scanPass n ab.cands ab.board).1).1⟩).1.board ≤
          emptyCount (scanPass n ab.cands ab.board).1 := hsub.2.1
      have hc : Square (scLoop f ⟨(scanPass n ab.cands ab.board).1,
          (Annotate (scanPass n ab.cands ab.board).1).1⟩).1.board n :=
        hsub.2.2
      rw [heq]
      exact ⟨by simp only []; omega, by simp only []; omega, hc⟩
    · have hfalse : (scanPass n ab.cands ab.board).2 = false := by
        cases h2 : (scanPass n ab.cands ab.board).2 with
        | false => rfl
        | true => exact absurd h2 hflag
      have heq : scLoop (f + 1) ab =
          (⟨(scanPass n ab.cands ab.board).1,
            (Annotate (scanPass n ab.cands ab.board).1).1⟩, 1) := by
        simp only [scLoop]
        rw [hbs, if_neg hflag]
      have hb0 : (scanPass n ab.cands ab.board).1 = ab.board :=
        hcinv.2.2.1 hfalse
      rw [heq]
      refine ⟨?_, ?_, ?_⟩
      · show 1 ≤ (emptyCount ab.board -
          emptyCount (scanPass n ab.cands ab.board).1) + 1
        omega
      · show emptyCount (scanPass n ab.cands ab.board).1 ≤ emptyCount ab.board
        rw [hb0]
      · show Square (scanPass n ab.cands ab.board).1 n
        exact hcinv.1

/-- C3 counterexample: on the 4×4 board with first row `1 2 3 0` and all
other cells empty, `SingleCandidate` returns `solved = false` (guessing is
required), yet the single returned board is NOT the input board: the scan
has filled the forced cell `(0,3) = 4` before getting stuck. -/
theorem singleCandidate_unchanged_cex :
    (SingleCandidate (mkAB [[1, 2, 3, 0], [0, 0, 0, 0], [0, 0, 0, 0],
      [0, 0, 0, 0]]) 1).1 = false ∧
    (SingleCandidate (mkAB [[1, 2, 3, 0], [0, 0, 0, 0], [0, 0, 0, 0],
      [0, 0, 0, 0]]) 1).2 ≠
      [[[1, 2, 3, 0], [0, 0, 0, 0], [0, 0, 0, 0], [0, 0, 0, 0]]] := by
  decide

set_option linter.unusedVariables false in
/-- C3 (amended): whenever `SingleCandidate` returns `solved = false`, the
returned list is a single board that extends the input board — every cell
already filled on entry keeps its value — but it is the loop's fixpoint
(all forced single candidates filled in), not necessarily the input board
itself. -/
theorem singleCandidate_unsolved_extends (ab : AnnotatedBoard) (maxS : Int)
    (h : (SingleCandidate ab maxS).1 = false) :
    ∃ b, (SingleCandidate ab maxS).2 = [b] ∧
      ∀ y x, 0 < getD2 ab.board y x → getD2 b y x = getD2 ab.board y x :=
  ⟨(scLoop (boardSize ab.board * boardSize ab.board + 2) ab).1.board, rfl,
    fun y x hpos => scLoop_ext _ ab y x hpos⟩

theorem singleCandidate_unsolved_extends_witness :
    (SingleCandidate (mkAB [[0, 0], [0, 0]]) 1).1 = false ∧
    ∃ b, (SingleCandidate (mkAB [[0, 0], [0, 0]]) 1).2 = [b] ∧
      ∀ y x, 0 < getD2 (mkAB [[0, 0], [0, 0]]).board y x →
        getD2 b y x = getD2 (mkAB [[0, 0], [0, 0]]).board y x :=
  ⟨by decide, singleCandidate_unsolved_extends (mkAB [[0, 0], [0, 0]]) 1
    (by decide)⟩

/-- C8 counterexample: on the 1×1 empty board (side N = 1), the loop runs
2 iterations — the first fills the only cell, the second detects no change
— which exceeds the claimed bound of N² = 1 iterations. -/
theorem singleCandidate_square_bound_cex :
    scIters (mkAB [[0]]) = 2 ∧ ¬(scIters (mkAB [[0]]) ≤ 1 * 1) := by
  decide

/-- C8 (amended): `SingleCandidate` terminates on every annotated square
board of side `n`: the number of outer-loop iterations exceeds the number
of cells the loop filled by at most one (each iteration but the last
fills at least one previously empty cell), hence it is at most
`emptyCount + 1 ≤ n² + 1`; and filled cells are never cleared. -/
theorem singleCandidate_iteration_bound (ab : AnnotatedBoard) (n : Nat)
    (hsq : Square ab.board n) (hg : ab.cands = (Annotate ab.board).1) :
    scIters ab ≤
        (emptyCount ab.board -
          emptyCount (scLoop (boardSize ab.board * boardSize ab.board + 2)
            ab).1.board) + 1 ∧
      scIters ab ≤ n * n + 1 ∧
      ∀ y x, 0 < getD2 ab.board y x →
        getD2 (scLoop (boardSize ab.board * boardSize ab.board + 2)
          ab).1.board y x = getD2 ab.board y x := by
  have hbs : boardSize ab.board = n := boardSize_of_square hsq
  have hle : emptyCount ab.board ≤ n * n := emptyCount_le_sq hsq
  have hgood : GoodGrid ab.board ab.cands := by
    rw [hg]
    exact annotate_good _
  have hm := scLoop_master (boardSize ab.board * boardSize ab.board + 2) ab
    hsq hgood (by rw [hbs]; omega)
  unfold scIters
  refine ⟨hm.1, ?_, fun y x hpos => scLoop_ext _ ab y x hpos⟩
  have h1 := hm.1
  have h2 := hm.2.1
  omega

theorem singleCandidate_iteration_bound_witness :
    scIters (mkAB [[0]]) ≤
        (emptyCount (mkAB [[0]]).board -
          emptyCount (scLoop (boardSize (mkAB [[0]]).board *
            boardSize (mkAB [[0]]).board + 2) (mkAB [[0]])).1.board) + 1 ∧
      scIters (mkAB [[0]]) ≤ 1 * 1 + 1 ∧
      ∀ y x, 0 < getD2 (mkAB [[0]]).board y x →
        getD2 (scLoop (boardSize (mkAB [[0]]).board *
          boardSize (mkAB [[0]]).board + 2) (mkAB [[0]])).1.board y x =
          getD2 (mkAB [[0]]).board y x :=
  singleCandidate_iteration_bound (mkAB [[0]]) 1 (by decide) rfl
